import Mathlib

/-!
# Verification of `webcrawl.go` (jackyugit/webcrawl)

A shallow embedding of the concurrent web crawler in `src/webcrawl.go`:

* `examineStep` / `runExamine` embed the examine goroutine of `main`
  (lines 89-96), which serializes all "should this url be fetched"
  decisions against the visit map `emap`.
* `fakeFetcherFetch` embeds `fakeFetcher.Fetch` (lines 110-115) and
  `fetcher` the canned dataset (lines 118-149).
* `SState` / `step` / `run` give an interleaving semantics of the set of
  live `Crawl` goroutines: a scheduler picks which pending task performs
  its (serialized) claim round-trip next; on a successful claim with
  positive depth the task fetches and spawns its children.  The schedule
  is arbitrary, so theorems quantified over schedules cover every
  concurrent interleaving of claim requests.
* `crawl` / `crawlList` embed the body of `Crawl` (lines 28-68) as a
  trace-producing interpreter: every event (claim round-trip, fetch,
  print, deferred channel send) is recorded, with the invoking
  goroutine's spawn path and remaining depth, so ordering and
  multiplicity of completion signals can be stated.
-/

/-- A `Fetcher` call result: `.ok (body, urls)` when `err == nil`,
`.error msg` when the fetch failed (the Go `Fetch` returns
`(body, urls, err)`). -/
abbrev FetchResult := Except String (String × List String)

/-- The `Fetcher` interface (webcrawl.go lines 7-11), as a function from
a url to a fetch result. -/
abbrev Fetcher := String → FetchResult

/-- `fakeResult` (webcrawl.go lines 105-108). -/
structure fakeResult where
  body : String
  urls : List String
  deriving DecidableEq, Repr

/-- `fakeFetcher` (webcrawl.go line 103): a map from url to canned
result, embedded as an association list. -/
abbrev fakeFetcher := List (String × fakeResult)

/-- `fakeFetcher.Fetch` (webcrawl.go lines 110-115): if the url is a key
of the map return `(res.body, res.urls, nil)`, otherwise return
`("", nil, fmt.Errorf("not found: %s", url))`.  The error is embedded as
`some message`. -/
def fakeFetcherFetch (f : fakeFetcher) (url : String) :
    String × List String × Option String :=
  match f.lookup url with
  | some res => (res.body, res.urls, none)
  | none => ("", [], some ("not found: " ++ url))

/-- The populated `fetcher` (webcrawl.go lines 118-149). -/
def fetcher : fakeFetcher :=
  [ ("http://golang.org/",
      { body := "The Go Programming Language"
        urls := ["http://golang.org/pkg/", "http://golang.org/cmd/"] }),
    ("http://golang.org/pkg/",
      { body := "Packages"
        urls := ["http://golang.org/", "http://golang.org/cmd/",
                 "http://golang.org/pkg/fmt/", "http://golang.org/pkg/os/"] }),
    ("http://golang.org/pkg/fmt/",
      { body := "Package fmt"
        urls := ["http://golang.org/", "http://golang.org/pkg/"] }),
    ("http://golang.org/pkg/os/",
      { body := "Package os"
        urls := ["http://golang.org/", "http://golang.org/pkg/"] }) ]

/-- The canned `fetcher` as a `Fetcher` function, i.e. the view of
`fakeFetcher.Fetch` used by `Crawl`. -/
def fetcherFn : Fetcher := fun url =>
  match fetcher.lookup url with
  | some res => .ok (res.body, res.urls)
  | none => .error ("not found: " ++ url)

/-- One iteration of the examine goroutine (webcrawl.go lines 91-94):
`goahead := emap[v.Url]; emap[v.Url] = true; v.Goahead <- !goahead`.
The visit map `emap` only ever maps keys to `true`, so it is embedded as
the list of its keys. -/
def examineStep (emap : List String) (url : String) : Bool × List String :=
  let goahead := emap.contains url
  (!goahead, if emap.contains url then emap else url :: emap)

/-- The examine goroutine's effect on a whole (arbitrarily interleaved,
but serialized by the single channel) sequence of `Examine` requests:
the list of `Goahead` answers, and the final visit map. -/
def runExamine (emap : List String) : List String → List Bool × List String
  | [] => ([], emap)
  | u :: us =>
    let r := examineStep emap u
    let rest := runExamine r.2 us
    (r.1 :: rest.1, rest.2)

theorem examineStep_fst (emap : List String) (url : String) :
    (examineStep emap url).1 = !emap.contains url := rfl

theorem examineStep_snd_contains (emap : List String) (url u : String) :
    (examineStep emap url).2.contains u = (emap.contains u || u == url) := by
  simp only [examineStep]
  by_cases h : emap.contains url = true
  · rw [if_pos h]
    by_cases hu : u = url
    · subst hu
      rw [h]
      simp
    · have hbe : (u == url) = false := by simp [hu]
      rw [hbe]
      simp
  · rw [if_neg h, List.contains_cons, Bool.or_comm]

theorem runExamine_length (emap : List String) (reqs : List String) :
    (runExamine emap reqs).1.length = reqs.length := by
  induction reqs generalizing emap with
  | nil => rfl
  | cons u us ih => simp [runExamine, ih]

/-- The answer to the `i`-th request is `true` iff its url was neither in
the initial visit map nor among the earlier requests. -/
theorem runExamine_get? (emap : List String) (reqs : List String) (i : Nat) :
    (runExamine emap reqs).1[i]? =
      (reqs[i]?).map
        (fun u => !(emap.contains u || (reqs.take i).contains u)) := by
  induction reqs generalizing emap i with
  | nil => simp [runExamine]
  | cons u us ih =>
    cases i with
    | zero => simp [runExamine, examineStep]
    | succ j =>
      simp only [runExamine, List.getElem?_cons_succ, List.take_succ_cons,
        List.contains_cons]
      rw [ih]
      cases hj : us[j]? with
      | none => simp
      | some v =>
        simp only [Option.map_some']
        rw [examineStep_snd_contains, Bool.or_assoc]

theorem runExamine_mem_snd (emap : List String) (reqs : List String)
    (u : String) :
    (runExamine emap reqs).2.contains u =
      (emap.contains u || reqs.contains u) := by
  induction reqs generalizing emap with
  | nil => simp [runExamine]
  | cons v vs ih =>
    simp only [runExamine]
    rw [ih, examineStep_snd_contains, List.contains_cons, Bool.or_assoc]

/-!
## Interleaving semantics of the set of live `Crawl` goroutines

Every `Crawl` goroutine performs exactly one synchronous claim round-trip
with the examine goroutine (lines 37-39); the examine goroutine serializes
these round-trips, so a whole concurrent run is determined by the order in
which pending goroutines get their claim processed.  `step` performs the
claim of one scheduled pending task and, when the claim succeeds with
positive depth, the fetch and the spawning of its children (lines 41-61).
A schedule is an arbitrary list of indices into the pending-task list, so
quantifying over schedules covers every interleaving.
-/

/-- Global state of a run: the examine goroutine's visit map, the pending
`Crawl` goroutines (url, remaining depth) that have not yet performed
their claim round-trip, and the urls for which `fetcher.Fetch` has been
invoked so far, in invocation order. -/
structure SState where
  emap : List String
  tasks : List (String × Int)
  invoked : List String
  deriving DecidableEq, Repr


/-- The work one scheduled `Crawl` goroutine `t = (url, depth)` performs
at its claim round-trip, `rest` being the other pending goroutines: the
claim (lines 37-44), the `depth <= 0` check (lines 45-47), the fetch
(lines 50-54) and the spawning of one child per link with depth-1
(lines 58-61). -/
def stepTask (f : Fetcher) (s : SState) (t : String × Int)
    (rest : List (String × Int)) : SState :=
  if !(examineStep s.emap t.1).1 then
    { emap := (examineStep s.emap t.1).2, tasks := rest,
      invoked := s.invoked }
  else if t.2 ≤ 0 then
    { emap := (examineStep s.emap t.1).2, tasks := rest,
      invoked := s.invoked }
  else match f t.1 with
    | .error _ =>
        { emap := (examineStep s.emap t.1).2, tasks := rest,
          invoked := s.invoked ++ [t.1] }
    | .ok res =>
        { emap := (examineStep s.emap t.1).2,
          tasks := rest ++ res.2.map (fun u => (u, t.2 - 1)),
          invoked := s.invoked ++ [t.1] }

/-- One scheduling step: the `i`-th pending goroutine runs `stepTask`;
an out-of-range index leaves the state unchanged. -/
def step (f : Fetcher) (s : SState) (i : Nat) : SState :=
  if h : i < s.tasks.length then
    stepTask f s (s.tasks.get ⟨i, h⟩) (s.tasks.eraseIdx i)
  else s

/-- Run a whole schedule. -/
def run (f : Fetcher) (s : SState) : List Nat → SState
  | [] => s
  | i :: sched => run f (step f s i) sched

/-- The initial state of `main` (lines 74-83): empty visit map, the
single root goroutine, no fetches yet. -/
def initState (url : String) (depth : Int) : SState :=
  { emap := [], tasks := [(url, depth)], invoked := [] }

theorem examineStep_snd_of_contains (emap : List String) (url : String)
    (h : emap.contains url = true) : (examineStep emap url).2 = emap := by
  unfold examineStep
  rw [if_pos h]

theorem examineStep_snd_of_not_contains (emap : List String) (url : String)
    (h : emap.contains url = false) :
    (examineStep emap url).2 = url :: emap := by
  unfold examineStep
  rw [if_neg (by rw [h]; exact Bool.false_ne_true)]

/-- Duplicate claim (lines 41-44): the goroutine just retires. -/
theorem stepTask_claimed (f : Fetcher) (s : SState) (t : String × Int)
    (rest : List (String × Int)) (h : s.emap.contains t.1 = true) :
    stepTask f s t rest =
      { emap := s.emap, tasks := rest, invoked := s.invoked } := by
  unfold stepTask
  rw [if_pos (by rw [examineStep_fst, h]; rfl),
    examineStep_snd_of_contains _ _ h]

/-- Fresh claim but exhausted depth (lines 45-47): the url is recorded in
the visit map but the Fetcher is not invoked. -/
theorem stepTask_depth0 (f : Fetcher) (s : SState) (t : String × Int)
    (rest : List (String × Int)) (h : s.emap.contains t.1 = false)
    (hd : t.2 ≤ 0) :
    stepTask f s t rest =
      { emap := t.1 :: s.emap, tasks := rest, invoked := s.invoked } := by
  unfold stepTask
  rw [if_neg (by rw [examineStep_fst, h]; exact Bool.false_ne_true),
    if_pos hd, examineStep_snd_of_not_contains _ _ h]

/-- Fresh claim, positive depth, failing fetch (lines 50-54): the Fetcher
is invoked, the error absorbed, no children spawned. -/
theorem stepTask_error (f : Fetcher) (s : SState) (t : String × Int)
    (rest : List (String × Int)) (e : String)
    (h : s.emap.contains t.1 = false) (hd : ¬ t.2 ≤ 0)
    (hf : f t.1 = .error e) :
    stepTask f s t rest =
      { emap := t.1 :: s.emap, tasks := rest,
        invoked := s.invoked ++ [t.1] } := by
  unfold stepTask
  rw [if_neg (by rw [examineStep_fst, h]; exact Bool.false_ne_true),
    if_neg hd, hf, examineStep_snd_of_not_contains _ _ h]

/-- Fresh claim, positive depth, successful fetch (lines 50-61): the
Fetcher is invoked and one child per link is spawned with depth-1. -/
theorem stepTask_ok (f : Fetcher) (s : SState) (t : String × Int)
    (rest : List (String × Int)) (res : String × List String)
    (h : s.emap.contains t.1 = false) (hd : ¬ t.2 ≤ 0)
    (hf : f t.1 = .ok res) :
    stepTask f s t rest =
      { emap := t.1 :: s.emap,
        tasks := rest ++ res.2.map (fun u => (u, t.2 - 1)),
        invoked := s.invoked ++ [t.1] } := by
  unfold stepTask
  rw [if_neg (by rw [examineStep_fst, h]; exact Bool.false_ne_true),
    if_neg hd, hf, examineStep_snd_of_not_contains _ _ h]

theorem run_append (f : Fetcher) (s : SState) (l₁ l₂ : List Nat) :
    run f s (l₁ ++ l₂) = run f (run f s l₁) l₂ := by
  induction l₁ generalizing s with
  | nil => rfl
  | cons i l ih => simp [run, ih]

/-- Case analysis on one `stepTask`. -/
theorem stepTask_cases (f : Fetcher) (s : SState) (t : String × Int)
    (rest : List (String × Int)) :
    (s.emap.contains t.1 = true ∧ stepTask f s t rest =
      { emap := s.emap, tasks := rest, invoked := s.invoked }) ∨
    (s.emap.contains t.1 = false ∧ t.2 ≤ 0 ∧ stepTask f s t rest =
      { emap := t.1 :: s.emap, tasks := rest, invoked := s.invoked }) ∨
    (s.emap.contains t.1 = false ∧ ¬ t.2 ≤ 0 ∧
      (∃ e, f t.1 = .error e) ∧ stepTask f s t rest =
      { emap := t.1 :: s.emap, tasks := rest,
        invoked := s.invoked ++ [t.1] }) ∨
    (s.emap.contains t.1 = false ∧ ¬ t.2 ≤ 0 ∧
      (∃ res, f t.1 = .ok res ∧ stepTask f s t rest =
        { emap := t.1 :: s.emap,
          tasks := rest ++ res.2.map (fun u => (u, t.2 - 1)),
          invoked := s.invoked ++ [t.1] })) := by
  by_cases h : s.emap.contains t.1 = true
  · exact Or.inl ⟨h, stepTask_claimed f s t rest h⟩
  · have h' : s.emap.contains t.1 = false := by
      simpa using h
    by_cases hd : t.2 ≤ 0
    · exact Or.inr (Or.inl ⟨h', hd, stepTask_depth0 f s t rest h' hd⟩)
    · cases hf : f t.1 with
      | error e =>
        exact Or.inr (Or.inr (Or.inl ⟨h', hd, ⟨e, rfl⟩,
          stepTask_error f s t rest e h' hd hf⟩))
      | ok res =>
        exact Or.inr (Or.inr (Or.inr ⟨h', hd, res, rfl,
          stepTask_ok f s t rest res h' hd hf⟩))

/-- `stepTask` never removes a url from the visit map. -/
theorem stepTask_emap_mono (f : Fetcher) (s : SState) (t : String × Int)
    (rest : List (String × Int)) (u : String) (h : u ∈ s.emap) :
    u ∈ (stepTask f s t rest).emap := by
  rcases stepTask_cases f s t rest with ⟨_, he⟩ | ⟨_, _, he⟩ |
    ⟨_, _, _, he⟩ | ⟨_, _, res, _, he⟩ <;> rw [he]
  · exact h
  · exact List.mem_cons_of_mem _ h
  · exact List.mem_cons_of_mem _ h
  · exact List.mem_cons_of_mem _ h

theorem step_emap_mono (f : Fetcher) (s : SState) (i : Nat) (u : String)
    (h : u ∈ s.emap) : u ∈ (step f s i).emap := by
  unfold step
  by_cases hi : i < s.tasks.length
  · rw [dif_pos hi]
    exact stepTask_emap_mono f s _ _ u h
  · rw [dif_neg hi]
    exact h

theorem run_emap_mono (f : Fetcher) (s : SState) (sched : List Nat)
    (u : String) (h : u ∈ s.emap) : u ∈ (run f s sched).emap := by
  induction sched generalizing s with
  | nil => exact h
  | cons i l ih => exact ih _ (step_emap_mono f s i u h)

/-- A step either leaves the fetch log alone, or appends a single url
that was not yet in the visit map and is in it afterwards. -/
theorem step_invoked_growth (f : Fetcher) (s : SState) (i : Nat) :
    ((step f s i).invoked = s.invoked ∧
      ((step f s i).emap = s.emap ∨
        ∃ u, (step f s i).emap = u :: s.emap)) ∨
    ∃ u, (step f s i).invoked = s.invoked ++ [u] ∧ u ∉ s.emap ∧
      (step f s i).emap = u :: s.emap := by
  unfold step
  by_cases hi : i < s.tasks.length
  · rw [dif_pos hi]
    rcases stepTask_cases f s (s.tasks.get ⟨i, hi⟩) (s.tasks.eraseIdx i)
      with ⟨_, he⟩ | ⟨hc, _, he⟩ | ⟨hc, _, _, he⟩ | ⟨hc, _, res, _, he⟩ <;>
      rw [he]
    · exact Or.inl ⟨rfl, Or.inl rfl⟩
    · exact Or.inl ⟨rfl, Or.inr ⟨_, rfl⟩⟩
    · exact Or.inr ⟨_, rfl, by simpa using hc, rfl⟩
    · exact Or.inr ⟨_, rfl, by simpa using hc, rfl⟩
  · rw [dif_neg hi]
    exact Or.inl ⟨rfl, Or.inl rfl⟩

/-- The uniqueness invariant: the fetch log has no duplicates and is
contained in the visit map. -/
def UniqInv (s : SState) : Prop :=
  s.invoked.Nodup ∧ ∀ u ∈ s.invoked, u ∈ s.emap

theorem step_uniqInv (f : Fetcher) (s : SState) (i : Nat)
    (h : UniqInv s) : UniqInv (step f s i) := by
  obtain ⟨hnd, hsub⟩ := h
  rcases step_invoked_growth f s i with ⟨heq, _⟩ | ⟨u, heq, hnew, hemap⟩
  · exact ⟨heq ▸ hnd, fun v hv => step_emap_mono f s i v (hsub v (heq ▸ hv))⟩
  · constructor
    · rw [heq]
      refine List.Nodup.append hnd (List.nodup_singleton u) ?_
      intro v hv hv'
      rw [List.mem_singleton] at hv'
      subst hv'
      exact hnew (hsub v hv)
    · intro v hv
      rw [heq, List.mem_append, List.mem_singleton] at hv
      rcases hv with hv | rfl
      · exact step_emap_mono f s i v (hsub v hv)
      · rw [hemap]
        exact List.mem_cons_self _ _

theorem run_uniqInv (f : Fetcher) (s : SState) (sched : List Nat)
    (h : UniqInv s) : UniqInv (run f s sched) := by
  induction sched generalizing s with
  | nil => exact h
  | cons i l ih => exact ih _ (step_uniqInv f s i h)

/-- C1.  In every run (every fetcher, root, depth, and interleaving of
the goroutines' claim round-trips), `fetcher.Fetch` is invoked at most
once per url, and only for urls the examine goroutine admitted into the
visit map. -/
theorem crawl_fetch_at_most_once (f : Fetcher) (root : String)
    (depth : Int) (sched : List Nat) (u : String) :
    (run f (initState root depth) sched).invoked.count u ≤ 1 ∧
      (u ∈ (run f (initState root depth) sched).invoked →
        u ∈ (run f (initState root depth) sched).emap) := by
  have h : UniqInv (run f (initState root depth) sched) :=
    run_uniqInv f _ sched ⟨List.nodup_nil, by intro v hv; cases hv⟩
  exact ⟨List.nodup_iff_count_le_one.mp h.1 u, fun hv => h.2 u hv⟩

/-- Once a url is in the visit map, a step never adds a fetch of it. -/
theorem step_count_invoked_of_mem_emap (f : Fetcher) (s : SState) (i : Nat)
    (u : String) (h : u ∈ s.emap) :
    (step f s i).invoked.count u = s.invoked.count u := by
  rcases step_invoked_growth f s i with ⟨heq, _⟩ | ⟨v, heq, hnew, _⟩
  · rw [heq]
  · rw [heq, List.count_append]
    have hvu : u ∉ [v] := by
      intro hm
      rw [List.mem_singleton] at hm
      exact hnew (hm ▸ h)
    rw [List.count_eq_zero.mpr hvu, Nat.add_zero]

/-- Once a url is in the visit map, no continuation of the run ever
invokes the Fetcher for it again. -/
theorem run_count_invoked_of_mem_emap (f : Fetcher) (s : SState)
    (sched : List Nat) (u : String) (h : u ∈ s.emap) :
    (run f s sched).invoked.count u = s.invoked.count u := by
  induction sched generalizing s with
  | nil => rfl
  | cons i l ih =>
    show (run f (step f s i) l).invoked.count u = _
    rw [ih (step f s i) (step_emap_mono f s i u h),
      step_count_invoked_of_mem_emap f s i u h]

theorem run_tasks_nil (f : Fetcher) (s : SState) (sched : List Nat)
    (h : s.tasks = []) : run f s sched = s := by
  induction sched with
  | nil => rfl
  | cons i l ih =>
    show run f (step f s i) l = s
    have hs : step f s i = s := by
      unfold step
      rw [dif_neg]
      rw [h]
      simp
    rw [hs, ih]

/-- With depth budget 0, the whole run only ever claims the root: either
nothing has happened yet, or the root goroutine has retired after
claiming (but not fetching) the root url. -/
theorem run_init_depth0 (f : Fetcher) (root : String) (sched : List Nat) :
    run f (initState root 0) sched = initState root 0 ∨
    run f (initState root 0) sched = ⟨[root], [], []⟩ := by
  have hstep : ∀ i, step f (initState root 0) i = initState root 0 ∨
      step f (initState root 0) i = ⟨[root], [], []⟩ := by
    intro i
    match i with
    | 0 =>
      refine Or.inr ?_
      unfold step
      rw [dif_pos (by simp [initState])]
      have hc : (initState root 0).emap.contains root = false := rfl
      exact stepTask_depth0 f _ _ _ hc le_rfl
    | i + 1 =>
      refine Or.inl ?_
      unfold step
      rw [dif_neg]
      simp [initState]
  induction sched with
  | nil => exact Or.inl rfl
  | cons i l ih =>
    show run f (step f (initState root 0) i) l = _ ∨
      run f (step f (initState root 0) i) l = _
    rcases hstep i with he | he
    · rw [he]
      exact ih
    · rw [he, run_tasks_nil f _ l rfl]
      exact Or.inr rfl

/-- C5.  A goroutine scheduled for a not-yet-claimed url with
`depth <= 0` claims the url (it enters the visit map) but never invokes
the Fetcher, and no later step of the run can fetch that url either;
with depth budget 0 the root is claimed but never fetched and the driver
returns once the single root goroutine has completed. -/
theorem crawl_depth0_claims_without_fetch (f : Fetcher) (s : SState)
    (i : Nat) (u : String) (d : Int) (sched : List Nat) (root : String)
    (hi : i < s.tasks.length) (ht : s.tasks.get ⟨i, hi⟩ = (u, d))
    (hd : d ≤ 0) (hu : u ∉ s.emap) :
    step f s i = ⟨u :: s.emap, s.tasks.eraseIdx i, s.invoked⟩ ∧
    (run f (step f s i) sched).invoked.count u = s.invoked.count u ∧
    (run f (initState root 0) sched).invoked = [] ∧
    run f (initState root 0) [0] = ⟨[root], [], []⟩ := by
  have hc : s.emap.contains u = false := by simpa using hu
  have hstep : step f s i = ⟨u :: s.emap, s.tasks.eraseIdx i, s.invoked⟩ := by
    unfold step
    rw [dif_pos hi, ht]
    exact stepTask_depth0 f s (u, d) _ hc hd
  refine ⟨hstep, ?_, ?_, ?_⟩
  · rw [run_count_invoked_of_mem_emap f _ sched u
      (by rw [hstep]; exact List.mem_cons_self _ _)]
    rw [hstep]
  · rcases run_init_depth0 f root sched with he | he
    · rw [he]
      rfl
    · rw [he]
  · have h0 : run f (initState root 0) [0] =
        step f (initState root 0) 0 := rfl
    rw [h0]
    unfold step
    rw [dif_pos (by simp [initState])]
    exact stepTask_depth0 f _ _ _ rfl le_rfl

/-- Witness for C5: the root goroutine of a depth-0 run on the canned
dataset. -/
theorem crawl_depth0_claims_without_fetch_witness :
    (0 < (initState "http://golang.org/" 0).tasks.length ∧
      (0 : Int) ≤ 0 ∧
      "http://golang.org/" ∉ (initState "http://golang.org/" 0).emap) ∧
    (step fetcherFn (initState "http://golang.org/" 0) 0 =
        ⟨"http://golang.org/" :: (initState "http://golang.org/" 0).emap,
          (initState "http://golang.org/" 0).tasks.eraseIdx 0,
          (initState "http://golang.org/" 0).invoked⟩ ∧
      (run fetcherFn (step fetcherFn (initState "http://golang.org/" 0) 0)
          [0, 1]).invoked.count "http://golang.org/" =
        (initState "http://golang.org/" 0).invoked.count "http://golang.org/" ∧
      (run fetcherFn (initState "http://golang.org/" 0) [0, 1]).invoked = [] ∧
      run fetcherFn (initState "http://golang.org/" 0) [0] =
        ⟨["http://golang.org/"], [], []⟩) :=
  ⟨⟨by decide, le_rfl, by decide⟩,
    crawl_depth0_claims_without_fetch fetcherFn
      (initState "http://golang.org/" 0) 0 "http://golang.org/" 0 [0, 1]
      "http://golang.org/" (by decide) rfl le_rfl (by decide)⟩

/-- C2.  The examine goroutine, fed any (arbitrarily interleaved but
serialized) sequence of claim requests starting from the fresh `emap` of
`main`, answers `true` exactly for the first request carrying each
distinct url and `false` for every later request with that url; the url
is inserted into the visit set by the first request; and the operation is
total: every request gets an answer. -/
theorem examine_claims_true_once_per_url (emap0 : List String)
    (reqs : List String) (i : Nat) (u v : String)
    (h : reqs[i]? = some u) :
    ((runExamine [] reqs).1[i]? = some true ↔ u ∉ reqs.take i) ∧
    ((runExamine [] reqs).1[i]? = some false ↔ u ∈ reqs.take i) ∧
    (v ∈ (runExamine [] reqs).2 ↔ v ∈ reqs) ∧
    (runExamine emap0 reqs).1.length = reqs.length := by
  have hg := runExamine_get? [] reqs i
  rw [h] at hg
  simp only [Option.map_some', List.contains_nil, Bool.false_or] at hg
  refine ⟨?_, ?_, ?_, runExamine_length emap0 reqs⟩
  · rw [hg]
    simp
  · rw [hg]
    simp
  · have hm := runExamine_mem_snd [] reqs v
    simp only [List.contains_nil, Bool.false_or] at hm
    constructor
    · intro hv
      have : (runExamine [] reqs).2.contains v = true := by simpa using hv
      rw [hm] at this
      simpa using this
    · intro hv
      have : reqs.contains v = true := by simpa using hv
      rw [← hm] at this
      simpa using this

/-- Witness for C2: the request sequence a, b, a. -/
theorem examine_claims_true_once_per_url_witness :
    (["a", "b", "a"][2]? = some "a") ∧
    (((runExamine [] ["a", "b", "a"]).1[2]? = some true ↔
        "a" ∉ ["a", "b", "a"].take 2) ∧
      ((runExamine [] ["a", "b", "a"]).1[2]? = some false ↔
        "a" ∈ ["a", "b", "a"].take 2) ∧
      ("b" ∈ (runExamine [] ["a", "b", "a"]).2 ↔ "b" ∈ ["a", "b", "a"]) ∧
      (runExamine ["c"] ["a", "b", "a"]).1.length =
        ["a", "b", "a"].length) :=
  ⟨rfl, examine_claims_true_once_per_url ["c"] ["a", "b", "a"] 2 "a" "b" rfl⟩

theorem lookup_none_iff_not_memKeys (f : fakeFetcher) (url : String) :
    f.lookup url = none ↔ url ∉ f.map Prod.fst := by
  induction f with
  | nil => simp
  | cons p l ih =>
    by_cases h : url = p.1
    · subst h
      simp [List.lookup]
    · have hb : (url == p.1) = false := by simp [h]
      simp [List.lookup, hb, ih, h]

/-- C10.  `fakeFetcher.Fetch` is a pure function that succeeds exactly on
keys of the map: a key gets its canned body and link list with `nil`
error, any other url gets an empty body, no links, and the error
"not found: " followed by the url. -/
theorem fakeFetcher_fetch_spec (f : fakeFetcher) (url : String) :
    ((∃ res, f.lookup url = some res ∧
        fakeFetcherFetch f url = (res.body, res.urls, none)) ↔
      url ∈ f.map Prod.fst) ∧
    (url ∉ f.map Prod.fst →
      fakeFetcherFetch f url = ("", [], some ("not found: " ++ url))) := by
  constructor
  · constructor
    · rintro ⟨res, hres, -⟩
      by_contra hk
      rw [← lookup_none_iff_not_memKeys] at hk
      rw [hk] at hres
      cases hres
    · intro hk
      cases hl : f.lookup url with
      | none =>
        rw [lookup_none_iff_not_memKeys] at hl
        exact absurd hk hl
      | some res =>
        refine ⟨res, rfl, ?_⟩
        unfold fakeFetcherFetch
        rw [hl]
  · intro hk
    rw [← lookup_none_iff_not_memKeys] at hk
    unfold fakeFetcherFetch
    rw [hk]

/-- Witness for C10: the canned dataset at a key and at a missing url. -/
theorem fakeFetcher_fetch_spec_witness :
    ((∃ res, fetcher.lookup "http://golang.org/cmd/" = some res ∧
        fakeFetcherFetch fetcher "http://golang.org/cmd/" =
          (res.body, res.urls, none)) ↔
      "http://golang.org/cmd/" ∈ fetcher.map Prod.fst) ∧
    ("http://golang.org/cmd/" ∉ fetcher.map Prod.fst →
      fakeFetcherFetch fetcher "http://golang.org/cmd/" =
        ("", [], some ("not found: " ++ "http://golang.org/cmd/"))) :=
  fakeFetcher_fetch_spec fetcher "http://golang.org/cmd/"

/-!
## The canned run (depth 4 from `http://golang.org/`)

Names for the five addresses of the canned dataset, and an invariant on
the reachable states of the depth-4 run from the root that pins down, for
every interleaving, which (url, depth) pairs can ever be pending and
which fetches must still be coming.
-/

def urlA : String := "http://golang.org/"

def urlPkg : String := "http://golang.org/pkg/"

def urlCmd : String := "http://golang.org/cmd/"

def urlFmt : String := "http://golang.org/pkg/fmt/"

def urlOs : String := "http://golang.org/pkg/os/"

def fiveUrls : List String := [urlA, urlPkg, urlCmd, urlFmt, urlOs]

theorem fetcherFn_A :
    fetcherFn urlA = .ok ("The Go Programming Language",
      [urlPkg, urlCmd]) := rfl

theorem fetcherFn_Pkg :
    fetcherFn urlPkg = .ok ("Packages",
      [urlA, urlCmd, urlFmt, urlOs]) := rfl

theorem fetcherFn_Cmd :
    fetcherFn urlCmd = .error ("not found: " ++ urlCmd) := rfl

theorem fetcherFn_Fmt :
    fetcherFn urlFmt = .ok ("Package fmt", [urlA, urlPkg]) := rfl

theorem fetcherFn_Os :
    fetcherFn urlOs = .ok ("Package os", [urlA, urlPkg]) := rfl

/-- The (url, remaining depth) pairs a pending goroutine of the canned
depth-4 run can carry, in any interleaving. -/
def allowedTasks : List (String × Int) :=
  [(urlA, 4), (urlPkg, 3), (urlCmd, 3), (urlA, 2), (urlCmd, 2),
   (urlFmt, 2), (urlOs, 2), (urlA, 1), (urlPkg, 1)]

theorem mem_get_or_mem_eraseIdx {α : Type} (l : List α) (i : Nat)
    (hi : i < l.length) (x : α) (hx : x ∈ l) :
    x = l.get ⟨i, hi⟩ ∨ x ∈ l.eraseIdx i := by
  induction l generalizing i with
  | nil => cases hx
  | cons a l ih =>
    cases i with
    | zero =>
      rcases List.mem_cons.mp hx with rfl | hx'
      · exact Or.inl rfl
      · exact Or.inr hx'
    | succ j =>
      rcases List.mem_cons.mp hx with rfl | hx'
      · exact Or.inr (List.mem_cons_self _ _)
      · rcases ih j (by simpa using hi) hx' with he | he
        · exact Or.inl he
        · exact Or.inr (List.mem_cons_of_mem _ he)

theorem mem_of_mem_eraseIdx {α : Type} (l : List α) (i : Nat) (x : α)
    (hx : x ∈ l.eraseIdx i) : x ∈ l := by
  induction l generalizing i with
  | nil => cases i <;> cases hx
  | cons a l ih =>
    cases i with
    | zero => exact List.mem_cons_of_mem _ hx
    | succ j =>
      rcases List.mem_cons.mp hx with rfl | hx'
      · exact List.mem_cons_self _ _
      · exact List.mem_cons_of_mem _ (ih j hx')

/-- Invariant of every reachable state of the canned depth-4 run:
bookkeeping (every pending task is one of `allowedTasks`, the fetch log
is duplicate-free, the visit map and the fetch log hold the same urls —
because in this run every first claim happens at depth at least 1 — and
only the five canned urls ever appear), provenance (a pending task of a
given depth certifies the fetch that spawned it), and progress (a url
that has been fetched forces each of its links to be fetched already or
still pending). -/
structure CannedInv (s : SState) : Prop where
  tasks_allowed : ∀ t ∈ s.tasks, t ∈ allowedTasks
  nodup : s.invoked.Nodup
  emap_eq : ∀ u, u ∈ s.emap ↔ u ∈ s.invoked
  inv_five : ∀ u ∈ s.invoked, u ∈ fiveUrls
  root_pending : urlA ∈ s.invoked ∨ (urlA, 4) ∈ s.tasks
  d3_P : (urlPkg, 3) ∈ s.tasks → urlA ∈ s.invoked
  d3_C : (urlCmd, 3) ∈ s.tasks → urlA ∈ s.invoked
  d2 : ∀ u, (u, 2) ∈ s.tasks → urlPkg ∈ s.invoked
  d1 : ∀ u, (u, 1) ∈ s.tasks → urlFmt ∈ s.invoked ∨ urlOs ∈ s.invoked
  P_A : urlPkg ∈ s.invoked → urlA ∈ s.invoked
  C_A : urlCmd ∈ s.invoked → urlA ∈ s.invoked
  F_P : urlFmt ∈ s.invoked → urlPkg ∈ s.invoked
  O_P : urlOs ∈ s.invoked → urlPkg ∈ s.invoked
  prog_P : urlA ∈ s.invoked → urlPkg ∈ s.invoked ∨ (urlPkg, 3) ∈ s.tasks
  prog_C : urlA ∈ s.invoked →
    urlCmd ∈ s.invoked ∨ (urlCmd, 3) ∈ s.tasks ∨ (urlCmd, 2) ∈ s.tasks
  prog_F : urlPkg ∈ s.invoked →
    urlFmt ∈ s.invoked ∨ (urlFmt, 2) ∈ s.tasks
  prog_O : urlPkg ∈ s.invoked →
    urlOs ∈ s.invoked ∨ (urlOs, 2) ∈ s.tasks

theorem cannedInv_init : CannedInv (initState urlA 4) := by
  refine ⟨?_, ?_, ?_, ?_, ?_, ?_, ?_, ?_, ?_, ?_, ?_, ?_, ?_, ?_, ?_,
    ?_, ?_⟩
  · intro t ht
    rcases List.mem_singleton.mp ht with rfl
    decide
  · exact List.nodup_nil
  · intro u
    constructor
    · intro h; cases h
    · intro h; cases h
  · intro u h; cases h
  · exact Or.inr (List.mem_singleton.mpr rfl)
  · intro h
    rcases List.mem_singleton.mp h with h'
    exact absurd h' (by decide)
  · intro h
    rcases List.mem_singleton.mp h with h'
    exact absurd h' (by decide)
  · intro u h
    rcases List.mem_singleton.mp h with h'
    have : (2 : Int) = 4 := congrArg Prod.snd h'
    exact absurd this (by decide)
  · intro u h
    rcases List.mem_singleton.mp h with h'
    have : (1 : Int) = 4 := congrArg Prod.snd h'
    exact absurd this (by decide)
  · intro h; cases h
  · intro h; cases h
  · intro h; cases h
  · intro h; cases h
  · intro h; cases h
  · intro h; cases h
  · intro h; cases h
  · intro h; cases h

theorem nodup_append_fresh (l : List String) (a : String) (hl : l.Nodup)
    (ha : a ∉ l) : (l ++ [a]).Nodup := by
  refine List.Nodup.append hl (List.nodup_singleton a) ?_
  intro v hv hv'
  rw [List.mem_singleton] at hv'
  subst hv'
  exact ha hv

theorem mem_invoked_append (inv : List String) (a u : String) :
    u ∈ inv ++ [a] ↔ u ∈ inv ∨ u = a := by
  rw [List.mem_append, List.mem_singleton]

theorem emap_eq_fresh (em inv : List String) (a : String)
    (he : ∀ u, u ∈ em ↔ u ∈ inv) (u : String) :
    u ∈ a :: em ↔ u ∈ inv ++ [a] := by
  rw [List.mem_cons, mem_invoked_append, he u, or_comm]

/-- Preservation helper: a fresh claim of `urlCmd` (at any positive
depth) fetches it, the fetch fails, the error is absorbed and nothing is
spawned. -/
theorem cannedInv_cmd_fresh (s : SState) (rest : List (String × Int))
    (h : CannedInv s)
    (hrest_sub : ∀ x ∈ rest, x ∈ s.tasks)
    (hsplit1 : ∀ x ∈ s.tasks, x.1 = urlCmd ∨ x ∈ rest)
    (hAin : urlA ∈ s.invoked)
    (hnC : urlCmd ∉ s.invoked) :
    CannedInv ⟨urlCmd :: s.emap, rest, s.invoked ++ [urlCmd]⟩ := by
  refine ⟨?_, nodup_append_fresh _ _ h.nodup hnC,
    emap_eq_fresh _ _ _ h.emap_eq, ?_, ?_, ?_, ?_, ?_, ?_, ?_, ?_, ?_,
    ?_, ?_, ?_, ?_, ?_⟩
  · exact fun x hx => h.tasks_allowed x (hrest_sub x hx)
  · intro u hu
    rcases (mem_invoked_append _ _ _).mp hu with hu | rfl
    · exact h.inv_five u hu
    · decide
  · exact Or.inl (List.mem_append_left _ hAin)
  · exact fun _ => List.mem_append_left _ hAin
  · exact fun _ => List.mem_append_left _ hAin
  · exact fun u hx => List.mem_append_left _ (h.d2 u (hrest_sub _ hx))
  · intro u hx
    rcases h.d1 u (hrest_sub _ hx) with hF | hO
    · exact Or.inl (List.mem_append_left _ hF)
    · exact Or.inr (List.mem_append_left _ hO)
  · intro hP
    rcases (mem_invoked_append _ _ _).mp hP with hP | he
    · exact List.mem_append_left _ (h.P_A hP)
    · exact absurd he (by decide)
  · exact fun _ => List.mem_append_left _ hAin
  · intro hF
    rcases (mem_invoked_append _ _ _).mp hF with hF | he
    · exact List.mem_append_left _ (h.F_P hF)
    · exact absurd he (by decide)
  · intro hO
    rcases (mem_invoked_append _ _ _).mp hO with hO | he
    · exact List.mem_append_left _ (h.O_P hO)
    · exact absurd he (by decide)
  · intro _
    rcases h.prog_P hAin with hP | hx
    · exact Or.inl (List.mem_append_left _ hP)
    · rcases hsplit1 _ hx with he | hr
      · exact absurd he (by decide)
      · exact Or.inr hr
  · exact fun _ => Or.inl ((mem_invoked_append _ _ _).mpr (Or.inr rfl))
  · intro hP2
    have hPin : urlPkg ∈ s.invoked := by
      rcases (mem_invoked_append _ _ _).mp hP2 with hx | he
      · exact hx
      · exact absurd he (by decide)
    rcases h.prog_F hPin with hF | hx
    · exact Or.inl (List.mem_append_left _ hF)
    · rcases hsplit1 _ hx with he | hr
      · exact absurd he (by decide)
      · exact Or.inr hr
  · intro hP2
    have hPin : urlPkg ∈ s.invoked := by
      rcases (mem_invoked_append _ _ _).mp hP2 with hx | he
      · exact hx
      · exact absurd he (by decide)
    rcases h.prog_O hPin with hO | hx
    · exact Or.inl (List.mem_append_left _ hO)
    · rcases hsplit1 _ hx with he | hr
      · exact absurd he (by decide)
      · exact Or.inr hr


/-- The invariant is preserved by every scheduling step of the canned
depth-4 run. -/
theorem cannedInv_step (s : SState) (i : Nat) (h : CannedInv s) :
    CannedInv (step fetcherFn s i) := by
  unfold step
  by_cases hi : i < s.tasks.length
  case neg =>
    rw [dif_neg hi]
    exact h
  case pos =>
  rw [dif_pos hi]
  set t := s.tasks.get ⟨i, hi⟩ with ht0
  set rest := s.tasks.eraseIdx i with hrest0
  have htmem : t ∈ s.tasks := ht0 ▸ List.get_mem s.tasks i hi
  have hrest_sub : ∀ x ∈ rest, x ∈ s.tasks := by
    intro x hx
    exact mem_of_mem_eraseIdx s.tasks i x (hrest0 ▸ hx)
  have hsplit : ∀ x ∈ s.tasks, x = t ∨ x ∈ rest := by
    intro x hx
    rcases mem_get_or_mem_eraseIdx s.tasks i hi x hx with he | hr
    · exact Or.inl (by rw [ht0]; exact he)
    · exact Or.inr (by rw [hrest0]; exact hr)
  by_cases hc : s.emap.contains t.1 = true
  · -- duplicate claim: the goroutine retires with no new work
    rw [stepTask_claimed fetcherFn s t rest hc]
    have htin : t.1 ∈ s.invoked := (h.emap_eq t.1).mp (by simpa using hc)
    have hurl : ∀ p : String × Int, p = t → p.1 ∈ s.invoked := by
      intro p hp
      rw [hp]
      exact htin
    refine ⟨?_, h.nodup, h.emap_eq, h.inv_five, ?_, ?_, ?_, ?_, ?_,
      h.P_A, h.C_A, h.F_P, h.O_P, ?_, ?_, ?_, ?_⟩
    · exact fun x hx => h.tasks_allowed x (hrest_sub x hx)
    · rcases h.root_pending with hA | hx
      · exact Or.inl hA
      · rcases hsplit _ hx with he | hr
        · exact Or.inl (hurl _ he)
        · exact Or.inr hr
    · exact fun hx => h.d3_P (hrest_sub _ hx)
    · exact fun hx => h.d3_C (hrest_sub _ hx)
    · exact fun u hx => h.d2 u (hrest_sub _ hx)
    · exact fun u hx => h.d1 u (hrest_sub _ hx)
    · intro hA
      rcases h.prog_P hA with hP | hx
      · exact Or.inl hP
      · rcases hsplit _ hx with he | hr
        · exact Or.inl (hurl _ he)
        · exact Or.inr hr
    · intro hA
      rcases h.prog_C hA with hC | hx | hx
      · exact Or.inl hC
      · rcases hsplit _ hx with he | hr
        · exact Or.inl (hurl _ he)
        · exact Or.inr (Or.inl hr)
      · rcases hsplit _ hx with he | hr
        · exact Or.inl (hurl _ he)
        · exact Or.inr (Or.inr hr)
    · intro hP
      rcases h.prog_F hP with hF | hx
      · exact Or.inl hF
      · rcases hsplit _ hx with he | hr
        · exact Or.inl (hurl _ he)
        · exact Or.inr hr
    · intro hP
      rcases h.prog_O hP with hO | hx
      · exact Or.inl hO
      · rcases hsplit _ hx with he | hr
        · exact Or.inl (hurl _ he)
        · exact Or.inr hr
  · -- fresh claim
    have hc' : s.emap.contains t.1 = false := by simpa using hc
    have htni : t.1 ∉ s.invoked := by
      intro hmem
      have h1 : t.1 ∈ s.emap := (h.emap_eq t.1).mpr hmem
      have h2 : s.emap.contains t.1 = true := by simpa using h1
      rw [hc'] at h2
      cases h2
    have hall := h.tasks_allowed t htmem
    simp only [allowedTasks, List.mem_cons, List.mem_singleton,
      List.not_mem_nil, or_false] at hall
    rcases hall with ht | ht | ht | ht | ht | ht | ht | ht | ht
    · -- t = (urlA, 4): fetch the root, spawn pkg and cmd at depth 3
      have hcA : s.emap.contains urlA = false := by rw [ht] at hc'; exact hc'
      have hnA : urlA ∉ s.invoked := by rw [ht] at htni; exact htni
      have hstep : stepTask fetcherFn s t rest =
          ⟨urlA :: s.emap, rest ++ [(urlPkg, 3), (urlCmd, 3)],
            s.invoked ++ [urlA]⟩ := by
        rw [ht]
        exact stepTask_ok fetcherFn s (urlA, 4) rest
          ("The Go Programming Language", [urlPkg, urlCmd]) hcA
          (by decide) fetcherFn_A
      rw [hstep]
      refine ⟨?_, nodup_append_fresh _ _ h.nodup hnA,
        emap_eq_fresh _ _ _ h.emap_eq, ?_, ?_, ?_, ?_, ?_, ?_, ?_, ?_,
        ?_, ?_, ?_, ?_, ?_, ?_⟩
      · intro x hx
        rcases List.mem_append.mp hx with hr | hsw
        · exact h.tasks_allowed x (hrest_sub x hr)
        · simp only [List.mem_cons, List.mem_singleton, List.not_mem_nil,
            or_false] at hsw
          rcases hsw with rfl | rfl
          · decide
          · decide
      · intro u hu
        rcases (mem_invoked_append _ _ _).mp hu with hu | rfl
        · exact h.inv_five u hu
        · decide
      · exact Or.inl ((mem_invoked_append _ _ _).mpr (Or.inr rfl))
      · exact fun _ => (mem_invoked_append _ _ _).mpr (Or.inr rfl)
      · exact fun _ => (mem_invoked_append _ _ _).mpr (Or.inr rfl)
      · intro u hx
        rcases List.mem_append.mp hx with hr | hsw
        · exact List.mem_append_left _ (h.d2 u (hrest_sub _ hr))
        · simp only [List.mem_cons, List.mem_singleton, List.not_mem_nil,
            or_false] at hsw
          rcases hsw with he | he
          · have h2 : (2 : Int) = 3 := congrArg Prod.snd he
            exact absurd h2 (by decide)
          · have h2 : (2 : Int) = 3 := congrArg Prod.snd he
            exact absurd h2 (by decide)
      · intro u hx
        rcases List.mem_append.mp hx with hr | hsw
        · rcases h.d1 u (hrest_sub _ hr) with hF | hO
          · exact Or.inl (List.mem_append_left _ hF)
          · exact Or.inr (List.mem_append_left _ hO)
        · simp only [List.mem_cons, List.mem_singleton, List.not_mem_nil,
            or_false] at hsw
          rcases hsw with he | he
          · have h2 : (1 : Int) = 3 := congrArg Prod.snd he
            exact absurd h2 (by decide)
          · have h2 : (1 : Int) = 3 := congrArg Prod.snd he
            exact absurd h2 (by decide)
      · exact fun _ => (mem_invoked_append _ _ _).mpr (Or.inr rfl)
      · exact fun _ => (mem_invoked_append _ _ _).mpr (Or.inr rfl)
      · intro hF
        rcases (mem_invoked_append _ _ _).mp hF with hF | he
        · exact List.mem_append_left _ (h.F_P hF)
        · exact absurd he (by decide)
      · intro hO
        rcases (mem_invoked_append _ _ _).mp hO with hO | he
        · exact List.mem_append_left _ (h.O_P hO)
        · exact absurd he (by decide)
      · exact fun _ => Or.inr (List.mem_append_right _ (by decide))
      · exact fun _ => Or.inr (Or.inl (List.mem_append_right _ (by decide)))
      · intro hP
        rcases (mem_invoked_append _ _ _).mp hP with hP | he
        · rcases h.prog_F hP with hF | hx
          · exact Or.inl (List.mem_append_left _ hF)
          · rcases hsplit _ hx with he' | hr
            · rw [ht] at he'
              exact absurd (congrArg Prod.snd he') (by decide)
            · exact Or.inr (List.mem_append_left _ hr)
        · exact absurd he (by decide)
      · intro hP
        rcases (mem_invoked_append _ _ _).mp hP with hP | he
        · rcases h.prog_O hP with hO | hx
          · exact Or.inl (List.mem_append_left _ hO)
          · rcases hsplit _ hx with he' | hr
            · rw [ht] at he'
              exact absurd (congrArg Prod.snd he') (by decide)
            · exact Or.inr (List.mem_append_left _ hr)
        · exact absurd he (by decide)
    · -- t = (urlPkg, 3): fetch pkg, spawn its four links at depth 2
      have hcP : s.emap.contains urlPkg = false := by rw [ht] at hc'; exact hc'
      have hnP : urlPkg ∉ s.invoked := by rw [ht] at htni; exact htni
      have htm2 : (urlPkg, 3) ∈ s.tasks := by rw [← ht]; exact htmem
      have hAin : urlA ∈ s.invoked := h.d3_P htm2
      have hstep : stepTask fetcherFn s t rest =
          ⟨urlPkg :: s.emap,
            rest ++ [(urlA, 2), (urlCmd, 2), (urlFmt, 2), (urlOs, 2)],
            s.invoked ++ [urlPkg]⟩ := by
        rw [ht]
        exact stepTask_ok fetcherFn s (urlPkg, 3) rest
          ("Packages", [urlA, urlCmd, urlFmt, urlOs]) hcP (by decide)
          fetcherFn_Pkg
      rw [hstep]
      refine ⟨?_, nodup_append_fresh _ _ h.nodup hnP,
        emap_eq_fresh _ _ _ h.emap_eq, ?_, ?_, ?_, ?_, ?_, ?_, ?_, ?_,
        ?_, ?_, ?_, ?_, ?_, ?_⟩
      · intro x hx
        rcases List.mem_append.mp hx with hr | hsw
        · exact h.tasks_allowed x (hrest_sub x hr)
        · simp only [List.mem_cons, List.mem_singleton, List.not_mem_nil,
            or_false] at hsw
          rcases hsw with rfl | rfl | rfl | rfl
          · decide
          · decide
          · decide
          · decide
      · intro u hu
        rcases (mem_invoked_append _ _ _).mp hu with hu | rfl
        · exact h.inv_five u hu
        · decide
      · exact Or.inl (List.mem_append_left _ hAin)
      · exact fun _ => List.mem_append_left _ hAin
      · intro hx
        rcases List.mem_append.mp hx with hr | hsw
        · exact List.mem_append_left _ (h.d3_C (hrest_sub _ hr))
        · simp only [List.mem_cons, List.mem_singleton, List.not_mem_nil,
            or_false] at hsw
          rcases hsw with he | he | he | he
          · have h2 : urlCmd = urlA := congrArg Prod.fst he
            exact absurd h2 (by decide)
          · have h2 : (3 : Int) = 2 := congrArg Prod.snd he
            exact absurd h2 (by decide)
          · have h2 : (3 : Int) = 2 := congrArg Prod.snd he
            exact absurd h2 (by decide)
          · have h2 : (3 : Int) = 2 := congrArg Prod.snd he
            exact absurd h2 (by decide)
      · exact fun u _ => (mem_invoked_append _ _ _).mpr (Or.inr rfl)
      · intro u hx
        rcases List.mem_append.mp hx with hr | hsw
        · rcases h.d1 u (hrest_sub _ hr) with hF | hO
          · exact Or.inl (List.mem_append_left _ hF)
          · exact Or.inr (List.mem_append_left _ hO)
        · simp only [List.mem_cons, List.mem_singleton, List.not_mem_nil,
            or_false] at hsw
          rcases hsw with he | he | he | he
          · have h2 : (1 : Int) = 2 := congrArg Prod.snd he
            exact absurd h2 (by decide)
          · have h2 : (1 : Int) = 2 := congrArg Prod.snd he
            exact absurd h2 (by decide)
          · have h2 : (1 : Int) = 2 := congrArg Prod.snd he
            exact absurd h2 (by decide)
          · have h2 : (1 : Int) = 2 := congrArg Prod.snd he
            exact absurd h2 (by decide)
      · exact fun _ => List.mem_append_left _ hAin
      · intro hC
        rcases (mem_invoked_append _ _ _).mp hC with hC | he
        · exact List.mem_append_left _ (h.C_A hC)
        · exact absurd he (by decide)
      · exact fun _ => (mem_invoked_append _ _ _).mpr (Or.inr rfl)
      · exact fun _ => (mem_invoked_append _ _ _).mpr (Or.inr rfl)
      · exact fun _ =>
          Or.inl ((mem_invoked_append _ _ _).mpr (Or.inr rfl))
      · exact fun _ =>
          Or.inr (Or.inr (List.mem_append_right _ (by decide)))
      · exact fun _ => Or.inr (List.mem_append_right _ (by decide))
      · exact fun _ => Or.inr (List.mem_append_right _ (by decide))
    · -- t = (urlCmd, 3): fetch cmd, which fails; nothing is spawned
      have hcC : s.emap.contains urlCmd = false := by rw [ht] at hc'; exact hc'
      have hnC : urlCmd ∉ s.invoked := by rw [ht] at htni; exact htni
      have htm2 : (urlCmd, 3) ∈ s.tasks := by rw [← ht]; exact htmem
      have hAin : urlA ∈ s.invoked := h.d3_C htm2
      have hstep : stepTask fetcherFn s t rest =
          ⟨urlCmd :: s.emap, rest, s.invoked ++ [urlCmd]⟩ := by
        rw [ht]
        exact stepTask_error fetcherFn s (urlCmd, 3) rest
          ("not found: " ++ urlCmd) hcC (by decide) fetcherFn_Cmd
      rw [hstep]
      refine cannedInv_cmd_fresh s rest h hrest_sub ?_ hAin hnC
      intro x hx
      rcases hsplit x hx with he | hr
      · rw [ht] at he
        exact Or.inl (congrArg Prod.fst he)
      · exact Or.inr hr
    · -- t = (urlA, 2): impossible fresh claim, the root is long claimed
      exfalso
      have htm2 : (urlA, 2) ∈ s.tasks := by rw [← ht]; exact htmem
      have hP : urlPkg ∈ s.invoked := h.d2 urlA htm2
      have hA : urlA ∈ s.invoked := h.P_A hP
      rw [ht] at htni
      exact htni hA
    · -- t = (urlCmd, 2): fetch cmd, which fails; nothing is spawned
      have hcC : s.emap.contains urlCmd = false := by rw [ht] at hc'; exact hc'
      have hnC : urlCmd ∉ s.invoked := by rw [ht] at htni; exact htni
      have htm2 : (urlCmd, 2) ∈ s.tasks := by rw [← ht]; exact htmem
      have hAin : urlA ∈ s.invoked := h.P_A (h.d2 urlCmd htm2)
      have hstep : stepTask fetcherFn s t rest =
          ⟨urlCmd :: s.emap, rest, s.invoked ++ [urlCmd]⟩ := by
        rw [ht]
        exact stepTask_error fetcherFn s (urlCmd, 2) rest
          ("not found: " ++ urlCmd) hcC (by decide) fetcherFn_Cmd
      rw [hstep]
      refine cannedInv_cmd_fresh s rest h hrest_sub ?_ hAin hnC
      intro x hx
      rcases hsplit x hx with he | hr
      · rw [ht] at he
        exact Or.inl (congrArg Prod.fst he)
      · exact Or.inr hr
    · -- t = (urlFmt, 2): fetch fmt, spawn its two links at depth 1
      have hcF : s.emap.contains urlFmt = false := by rw [ht] at hc'; exact hc'
      have hnF : urlFmt ∉ s.invoked := by rw [ht] at htni; exact htni
      have htm2 : (urlFmt, 2) ∈ s.tasks := by rw [← ht]; exact htmem
      have hPin : urlPkg ∈ s.invoked := h.d2 urlFmt htm2
      have hAin : urlA ∈ s.invoked := h.P_A hPin
      have hstep : stepTask fetcherFn s t rest =
          ⟨urlFmt :: s.emap, rest ++ [(urlA, 1), (urlPkg, 1)],
            s.invoked ++ [urlFmt]⟩ := by
        rw [ht]
        exact stepTask_ok fetcherFn s (urlFmt, 2) rest
          ("Package fmt", [urlA, urlPkg]) hcF (by decide) fetcherFn_Fmt
      rw [hstep]
      refine ⟨?_, nodup_append_fresh _ _ h.nodup hnF,
        emap_eq_fresh _ _ _ h.emap_eq, ?_, ?_, ?_, ?_, ?_, ?_, ?_, ?_,
        ?_, ?_, ?_, ?_, ?_, ?_⟩
      · intro x hx
        rcases List.mem_append.mp hx with hr | hsw
        · exact h.tasks_allowed x (hrest_sub x hr)
        · simp only [List.mem_cons, List.mem_singleton, List.not_mem_nil,
            or_false] at hsw
          rcases hsw with rfl | rfl
          · decide
          · decide
      · intro u hu
        rcases (mem_invoked_append _ _ _).mp hu with hu | rfl
        · exact h.inv_five u hu
        · decide
      · exact Or.inl (List.mem_append_left _ hAin)
      · exact fun _ => List.mem_append_left _ hAin
      · exact fun _ => List.mem_append_left _ hAin
      · exact fun u _ => List.mem_append_left _ hPin
      · exact fun u _ =>
          Or.inl ((mem_invoked_append _ _ _).mpr (Or.inr rfl))
      · exact fun _ => List.mem_append_left _ hAin
      · intro hC
        rcases (mem_invoked_append _ _ _).mp hC with hC | he
        · exact List.mem_append_left _ (h.C_A hC)
        · exact absurd he (by decide)
      · exact fun _ => List.mem_append_left _ hPin
      · intro hO
        rcases (mem_invoked_append _ _ _).mp hO with hO | he
        · exact List.mem_append_left _ (h.O_P hO)
        · exact absurd he (by decide)
      · exact fun _ => Or.inl (List.mem_append_left _ hPin)
      · intro _
        rcases h.prog_C hAin with hC | hx | hx
        · exact Or.inl (List.mem_append_left _ hC)
        · rcases hsplit _ hx with he | hr
          · rw [ht] at he
            have h2 : (3 : Int) = 2 := congrArg Prod.snd he
            exact absurd h2 (by decide)
          · exact Or.inr (Or.inl (List.mem_append_left _ hr))
        · rcases hsplit _ hx with he | hr
          · rw [ht] at he
            have h2 : urlCmd = urlFmt := congrArg Prod.fst he
            exact absurd h2 (by decide)
          · exact Or.inr (Or.inr (List.mem_append_left _ hr))
      · exact fun _ =>
          Or.inl ((mem_invoked_append _ _ _).mpr (Or.inr rfl))
      · intro hP2
        rcases h.prog_O hPin with hO | hx
        · exact Or.inl (List.mem_append_left _ hO)
        · rcases hsplit _ hx with he | hr
          · rw [ht] at he
            have h2 : urlOs = urlFmt := congrArg Prod.fst he
            exact absurd h2 (by decide)
          · exact Or.inr (List.mem_append_left _ hr)
    · -- t = (urlOs, 2): fetch os, spawn its two links at depth 1
      have hcO : s.emap.contains urlOs = false := by rw [ht] at hc'; exact hc'
      have hnO : urlOs ∉ s.invoked := by rw [ht] at htni; exact htni
      have htm2 : (urlOs, 2) ∈ s.tasks := by rw [← ht]; exact htmem
      have hPin : urlPkg ∈ s.invoked := h.d2 urlOs htm2
      have hAin : urlA ∈ s.invoked := h.P_A hPin
      have hstep : stepTask fetcherFn s t rest =
          ⟨urlOs :: s.emap, rest ++ [(urlA, 1), (urlPkg, 1)],
            s.invoked ++ [urlOs]⟩ := by
        rw [ht]
        exact stepTask_ok fetcherFn s (urlOs, 2) rest
          ("Package os", [urlA, urlPkg]) hcO (by decide) fetcherFn_Os
      rw [hstep]
      refine ⟨?_, nodup_append_fresh _ _ h.nodup hnO,
        emap_eq_fresh _ _ _ h.emap_eq, ?_, ?_, ?_, ?_, ?_, ?_, ?_, ?_,
        ?_, ?_, ?_, ?_, ?_, ?_⟩
      · intro x hx
        rcases List.mem_append.mp hx with hr | hsw
        · exact h.tasks_allowed x (hrest_sub x hr)
        · simp only [List.mem_cons, List.mem_singleton, List.not_mem_nil,
            or_false] at hsw
          rcases hsw with rfl | rfl
          · decide
          · decide
      · intro u hu
        rcases (mem_invoked_append _ _ _).mp hu with hu | rfl
        · exact h.inv_five u hu
        · decide
      · exact Or.inl (List.mem_append_left _ hAin)
      · exact fun _ => List.mem_append_left _ hAin
      · exact fun _ => List.mem_append_left _ hAin
      · exact fun u _ => List.mem_append_left _ hPin
      · exact fun u _ =>
          Or.inr ((mem_invoked_append _ _ _).mpr (Or.inr rfl))
      · exact fun _ => List.mem_append_left _ hAin
      · intro hC
        rcases (mem_invoked_append _ _ _).mp hC with hC | he
        · exact List.mem_append_left _ (h.C_A hC)
        · exact absurd he (by decide)
      · intro hF
        rcases (mem_invoked_append _ _ _).mp hF with hF | he
        · exact List.mem_append_left _ (h.F_P hF)
        · exact absurd he (by decide)
      · exact fun _ => List.mem_append_left _ hPin
      · exact fun _ => Or.inl (List.mem_append_left _ hPin)
      · intro _
        rcases h.prog_C hAin with hC | hx | hx
        · exact Or.inl (List.mem_append_left _ hC)
        · rcases hsplit _ hx with he | hr
          · rw [ht] at he
            have h2 : (3 : Int) = 2 := congrArg Prod.snd he
            exact absurd h2 (by decide)
          · exact Or.inr (Or.inl (List.mem_append_left _ hr))
        · rcases hsplit _ hx with he | hr
          · rw [ht] at he
            have h2 : urlCmd = urlOs := congrArg Prod.fst he
            exact absurd h2 (by decide)
          · exact Or.inr (Or.inr (List.mem_append_left _ hr))
      · intro hP2
        rcases h.prog_F hPin with hF | hx
        · exact Or.inl (List.mem_append_left _ hF)
        · rcases hsplit _ hx with he | hr
          · rw [ht] at he
            have h2 : urlFmt = urlOs := congrArg Prod.fst he
            exact absurd h2 (by decide)
          · exact Or.inr (List.mem_append_left _ hr)
      · exact fun _ =>
          Or.inl ((mem_invoked_append _ _ _).mpr (Or.inr rfl))
    · -- t = (urlA, 1): impossible fresh claim, the root is long claimed
      exfalso
      have htm2 : (urlA, 1) ∈ s.tasks := by rw [← ht]; exact htmem
      have hP : urlPkg ∈ s.invoked := by
        rcases h.d1 urlA htm2 with hF | hO
        · exact h.F_P hF
        · exact h.O_P hO
      have hA : urlA ∈ s.invoked := h.P_A hP
      rw [ht] at htni
      exact htni hA
    · -- t = (urlPkg, 1): impossible fresh claim, pkg is long claimed
      exfalso
      have htm2 : (urlPkg, 1) ∈ s.tasks := by rw [← ht]; exact htmem
      have hP : urlPkg ∈ s.invoked := by
        rcases h.d1 urlPkg htm2 with hF | hO
        · exact h.F_P hF
        · exact h.O_P hO
      rw [ht] at htni
      exact htni hP

theorem cannedInv_run (s : SState) (sched : List Nat) (h : CannedInv s) :
    CannedInv (run fetcherFn s sched) := by
  induction sched generalizing s with
  | nil => exact h
  | cons i l ih =>
    show CannedInv (run fetcherFn (step fetcherFn s i) l)
    exact ih _ (cannedInv_step s i h)

/-- C9.  In the canned depth-4 run from `http://golang.org/`, under every
interleaving after which no goroutine is pending any more (which is what
holds once the driver's blocking receive has returned), the Fetcher has
been invoked exactly once for each of the five canned addresses and for
nothing else; in particular the re-discoveries of the root via pkg, fmt
and os trigger no second fetch. -/
theorem canned_run_fetches_each_once (sched : List Nat)
    (hterm : (run fetcherFn (initState urlA 4) sched).tasks = []) :
    (run fetcherFn (initState urlA 4) sched).invoked.Perm fiveUrls ∧
    ∀ u ∈ fiveUrls,
      (run fetcherFn (initState urlA 4) sched).invoked.count u = 1 := by
  set s := run fetcherFn (initState urlA 4) sched with hs
  have h : CannedInv s := cannedInv_run _ sched cannedInv_init
  have hA : urlA ∈ s.invoked := by
    rcases h.root_pending with hA | hx
    · exact hA
    · rw [hterm] at hx
      cases hx
  have hP : urlPkg ∈ s.invoked := by
    rcases h.prog_P hA with hP | hx
    · exact hP
    · rw [hterm] at hx
      cases hx
  have hC : urlCmd ∈ s.invoked := by
    rcases h.prog_C hA with hC | hx | hx
    · exact hC
    · rw [hterm] at hx
      cases hx
    · rw [hterm] at hx
      cases hx
  have hF : urlFmt ∈ s.invoked := by
    rcases h.prog_F hP with hF | hx
    · exact hF
    · rw [hterm] at hx
      cases hx
  have hO : urlOs ∈ s.invoked := by
    rcases h.prog_O hP with hO | hx
    · exact hO
    · rw [hterm] at hx
      cases hx
  have hperm : s.invoked.Perm fiveUrls := by
    refine (List.perm_ext_iff_of_nodup h.nodup (by decide)).mpr ?_
    intro u
    constructor
    · exact h.inv_five u
    · intro hu
      simp only [fiveUrls, List.mem_cons, List.mem_singleton,
        List.not_mem_nil, or_false] at hu
      rcases hu with rfl | rfl | rfl | rfl | rfl
      · exact hA
      · exact hP
      · exact hC
      · exact hF
      · exact hO
  refine ⟨hperm, ?_⟩
  intro u hu
  rw [hperm.count_eq u]
  simp only [fiveUrls, List.mem_cons, List.mem_singleton,
    List.not_mem_nil, or_false] at hu
  rcases hu with rfl | rfl | rfl | rfl | rfl
  · decide
  · decide
  · decide
  · decide
  · decide

/-- Witness for C9: the sequential schedule that always runs the first
pending goroutine drains the run in 11 steps. -/
theorem canned_run_fetches_each_once_witness :
    ((run fetcherFn (initState urlA 4) (List.replicate 11 0)).tasks = []) ∧
    ((run fetcherFn (initState urlA 4)
        (List.replicate 11 0)).invoked.Perm fiveUrls ∧
      ∀ u ∈ fiveUrls,
        (run fetcherFn (initState urlA 4)
          (List.replicate 11 0)).invoked.count u = 1) :=
  ⟨by decide, canned_run_fetches_each_once (List.replicate 11 0) (by decide)⟩

/-!
## Trace semantics of one `Crawl` invocation (webcrawl.go lines 28-68)

`crawl` interprets the body of `Crawl` and records every observable
action.  An invocation is identified by its spawn path `p` (the root is
`[0]`, the `i`-th child of `p` is `p ++ [i]`); `ch` identifies the
channel the invocation's deferred send goes to, and the invocation's
private `subch` (line 58) is identified by its own path `p`, so the
`i`-th child is `crawl f (p ++ [i]) p ...`.  Child traces appear between
the parent's fetch and the parent's deferred `done`, mirroring that the
parent blocks on `subch` for one receive per spawned child (lines 62-66)
before its deferred send (line 30) fires.
-/

/-- An observable action of a `Crawl` goroutine: the claim round-trip
(lines 37-39), a `fetcher.Fetch` invocation (line 50) tagged with the
invoking goroutine's path and remaining depth, the error print (line 52),
the found print (line 55), and a send on a completion channel (line 30,
deferred). -/
inductive Event where
  | claim (p : List Nat) (url : String) (goahead : Bool)
  | fetch (p : List Nat) (url : String) (depth : Int) (ok : Bool)
  | report (msg : String)
  | found (url : String) (body : String)
  | done (ch : List Nat) (url : String)
  deriving DecidableEq, Repr

mutual

/-- The body of `Crawl` (lines 28-68): deferred completion send, claim
round-trip, duplicate check, depth check, fetch, error print, spawn of
one child per link with depth-1, join on the private subchannel.
Returns the final visit map and the event trace. -/
def crawl (f : Fetcher) (p ch : List Nat) (url : String) (depth : Int)
    (emap : List String) : List String × List Event :=
  if !(examineStep emap url).1 then
    ((examineStep emap url).2,
      [Event.claim p url false, Event.done ch url])
  else if depth ≤ 0 then
    ((examineStep emap url).2,
      [Event.claim p url true, Event.done ch url])
  else match f url with
    | .error e =>
        ((examineStep emap url).2,
          [Event.claim p url true, Event.fetch p url depth false,
            Event.report e, Event.done ch url])
    | .ok res =>
        ((crawlList f p 0 res.2 (depth - 1) (examineStep emap url).2).1,
          Event.claim p url true :: Event.fetch p url depth true ::
            Event.found url res.1 ::
            ((crawlList f p 0 res.2 (depth - 1)
                (examineStep emap url).2).2 ++ [Event.done ch url]))
termination_by (depth.toNat, 0)
decreasing_by
  apply Prod.Lex.left
  omega

/-- The loop of lines 59-61: spawn `crawl` for each link in order (the
`i`-th child gets path `p ++ [i]` and reports on channel `p`), threading
the visit map. -/
def crawlList (f : Fetcher) (p : List Nat) (i : Nat) (urls : List String)
    (depth : Int) (emap : List String) : List String × List Event :=
  match urls with
  | [] => (emap, [])
  | u :: us =>
      ((crawlList f p (i + 1) us depth
          (crawl f (p ++ [i]) p u depth emap).1).1,
        (crawl f (p ++ [i]) p u depth emap).2 ++
          (crawlList f p (i + 1) us depth
            (crawl f (p ++ [i]) p u depth emap).1).2)
termination_by (depth.toNat, urls.length + 1)
decreasing_by
  all_goals
    apply Prod.Lex.right
    simp only [List.length_cons]
    omega

end

theorem crawlList_nil (f : Fetcher) (p : List Nat) (i : Nat) (depth : Int)
    (emap : List String) : crawlList f p i [] depth emap = (emap, []) := by
  conv_lhs => unfold crawlList

theorem crawlList_cons (f : Fetcher) (p : List Nat) (i : Nat) (u : String)
    (us : List String) (depth : Int) (emap : List String) :
    crawlList f p i (u :: us) depth emap =
      ((crawlList f p (i + 1) us depth
          (crawl f (p ++ [i]) p u depth emap).1).1,
        (crawl f (p ++ [i]) p u depth emap).2 ++
          (crawlList f p (i + 1) us depth
            (crawl f (p ++ [i]) p u depth emap).1).2) := by
  conv_lhs => unfold crawlList

/-- Duplicate claim (lines 41-44): claim answered false, immediate
return, deferred send. -/
theorem crawl_dup (f : Fetcher) (p ch : List Nat) (url : String)
    (depth : Int) (emap : List String) (h : emap.contains url = true) :
    crawl f p ch url depth emap =
      (emap, [Event.claim p url false, Event.done ch url]) := by
  unfold crawl
  rw [if_pos (by rw [examineStep_fst, h]; rfl),
    examineStep_snd_of_contains _ _ h]

/-- Fresh claim, exhausted depth (lines 45-47): claimed but not fetched,
deferred send. -/
theorem crawl_exhausted (f : Fetcher) (p ch : List Nat) (url : String)
    (depth : Int) (emap : List String) (h : emap.contains url = false)
    (hd : depth ≤ 0) :
    crawl f p ch url depth emap =
      (url :: emap, [Event.claim p url true, Event.done ch url]) := by
  unfold crawl
  rw [if_neg (by rw [examineStep_fst, h]; exact Bool.false_ne_true),
    if_pos hd, examineStep_snd_of_not_contains _ _ h]

/-- Fresh claim, positive depth, failing fetch (lines 50-54): the error
is printed and the goroutine returns, deferred send. -/
theorem crawl_fetch_error (f : Fetcher) (p ch : List Nat) (url : String)
    (depth : Int) (emap : List String) (e : String)
    (h : emap.contains url = false) (hd : ¬ depth ≤ 0)
    (hf : f url = .error e) :
    crawl f p ch url depth emap =
      (url :: emap,
        [Event.claim p url true, Event.fetch p url depth false,
          Event.report e, Event.done ch url]) := by
  unfold crawl
  rw [if_neg (by rw [examineStep_fst, h]; exact Bool.false_ne_true),
    if_neg hd, hf, examineStep_snd_of_not_contains _ _ h]

/-- Fresh claim, positive depth, successful fetch (lines 50-68): print,
spawn one child per link with depth-1, join, deferred send last. -/
theorem crawl_fetch_ok (f : Fetcher) (p ch : List Nat) (url : String)
    (depth : Int) (emap : List String) (res : String × List String)
    (h : emap.contains url = false) (hd : ¬ depth ≤ 0)
    (hf : f url = .ok res) :
    crawl f p ch url depth emap =
      ((crawlList f p 0 res.2 (depth - 1) (url :: emap)).1,
        Event.claim p url true :: Event.fetch p url depth true ::
          Event.found url res.1 ::
          ((crawlList f p 0 res.2 (depth - 1) (url :: emap)).2 ++
            [Event.done ch url])) := by
  unfold crawl
  rw [if_neg (by rw [examineStep_fst, h]; exact Bool.false_ne_true),
    if_neg hd, hf, examineStep_snd_of_not_contains _ _ h]

/-- Case analysis on one `crawl` invocation. -/
theorem crawl_cases (f : Fetcher) (p ch : List Nat) (url : String)
    (depth : Int) (emap : List String) :
    (emap.contains url = true ∧ crawl f p ch url depth emap =
      (emap, [Event.claim p url false, Event.done ch url])) ∨
    (emap.contains url = false ∧ depth ≤ 0 ∧ crawl f p ch url depth emap =
      (url :: emap, [Event.claim p url true, Event.done ch url])) ∨
    (emap.contains url = false ∧ ¬ depth ≤ 0 ∧
      (∃ e, f url = .error e ∧ crawl f p ch url depth emap =
        (url :: emap,
          [Event.claim p url true, Event.fetch p url depth false,
            Event.report e, Event.done ch url]))) ∨
    (emap.contains url = false ∧ ¬ depth ≤ 0 ∧
      (∃ res, f url = .ok res ∧ crawl f p ch url depth emap =
        ((crawlList f p 0 res.2 (depth - 1) (url :: emap)).1,
          Event.claim p url true :: Event.fetch p url depth true ::
            Event.found url res.1 ::
            ((crawlList f p 0 res.2 (depth - 1) (url :: emap)).2 ++
              [Event.done ch url])))) := by
  by_cases h : emap.contains url = true
  · exact Or.inl ⟨h, crawl_dup f p ch url depth emap h⟩
  · have h' : emap.contains url = false := by simpa using h
    by_cases hd : depth ≤ 0
    · exact Or.inr (Or.inl ⟨h', hd, crawl_exhausted f p ch url depth emap h' hd⟩)
    · cases hf : f url with
      | error e =>
        exact Or.inr (Or.inr (Or.inl ⟨h', hd,
          e, rfl, crawl_fetch_error f p ch url depth emap e h' hd hf⟩))
      | ok res =>
        exact Or.inr (Or.inr (Or.inr ⟨h', hd,
          res, rfl, crawl_fetch_ok f p ch url depth emap res h' hd hf⟩))

/-- Is this event a send on channel `c`? -/
def isDoneOn (c : List Nat) : Event → Bool
  | Event.done c2 _ => c2 == c
  | _ => false

/-- Is this event a send on some completion channel? -/
def isDone : Event → Bool
  | Event.done _ _ => true
  | _ => false

/-- Is this event a claim round-trip? -/
def isClaim : Event → Bool
  | Event.claim _ _ _ => true
  | _ => false

theorem isPrefixOf_extend_false (p c : List Nat) (i : Nat)
    (h : p.isPrefixOf c = false) : (p ++ [i]).isPrefixOf c = false := by
  by_contra hx
  have hb : (p ++ [i]).isPrefixOf c = true := by simpa using hx
  rw [List.isPrefixOf_iff_prefix] at hb
  have hp : p <+: c := (List.prefix_append p [i]).trans hb
  rw [← List.isPrefixOf_iff_prefix] at hp
  rw [h] at hp
  cases hp

theorem ne_of_not_prefixOf (p c : List Nat) (h : p.isPrefixOf c = false) :
    c ≠ p := by
  intro he
  subst he
  have : c.isPrefixOf c = true :=
    List.isPrefixOf_iff_prefix.mpr (List.prefix_refl c)
  rw [h] at this
  cases this

theorem append_not_prefixOf_self (p : List Nat) (i : Nat) :
    (p ++ [i]).isPrefixOf p = false := by
  by_contra hx
  have hb : (p ++ [i]).isPrefixOf p = true := by simpa using hx
  rw [List.isPrefixOf_iff_prefix] at hb
  have := hb.length_le
  simp at this

theorem countP_doneOn_claim (c p : List Nat) (url : String) (b : Bool) :
    isDoneOn c (Event.claim p url b) = false := rfl

theorem countP_doneOn_done (c ch : List Nat) (url : String) :
    isDoneOn c (Event.done ch url) = (ch == c) := rfl

/-- Completion-signal counting: a `crawl` invocation given channel `ch`
sends exactly one completion on `ch` and none on any other channel that
is not a descendant channel (first part); the loop body sends nothing on
non-descendant channels (second part) and exactly one completion per
spawned child on the parent's private channel `p` (third part). -/
theorem crawl_countDone_all (n : Nat) :
    (∀ (f : Fetcher) (p ch c : List Nat) (url : String) (depth : Int)
      (emap : List String), depth.toNat ≤ n → p.isPrefixOf c = false →
      (crawl f p ch url depth emap).2.countP (isDoneOn c) =
        if c = ch then 1 else 0) ∧
    (∀ (f : Fetcher) (p c : List Nat) (i : Nat) (urls : List String)
      (depth : Int) (emap : List String), depth.toNat ≤ n →
      p.isPrefixOf c = false →
      (crawlList f p i urls depth emap).2.countP (isDoneOn c) = 0) ∧
    (∀ (f : Fetcher) (p : List Nat) (i : Nat) (urls : List String)
      (depth : Int) (emap : List String), depth.toNat ≤ n →
      (crawlList f p i urls depth emap).2.countP (isDoneOn p) =
        urls.length) := by
  induction n using Nat.strong_induction_on with
  | _ n ih =>
  have hP : ∀ (f : Fetcher) (p ch c : List Nat) (url : String)
      (depth : Int) (emap : List String), depth.toNat ≤ n →
      p.isPrefixOf c = false →
      (crawl f p ch url depth emap).2.countP (isDoneOn c) =
        if c = ch then 1 else 0 := by
    intro f p ch c url depth emap hdep hpre
    rcases crawl_cases f p ch url depth emap with
      ⟨hc, he⟩ | ⟨hc, hd, he⟩ | ⟨hc, hd, e, hf, he⟩ | ⟨hc, hd, res, hf, he⟩ <;>
      rw [he]
    · simp only [List.countP_cons, List.countP_nil, countP_doneOn_claim,
        countP_doneOn_done]
      by_cases hcc : c = ch
      · subst hcc
        simp
      · have : (ch == c) = false := by
          simp only [beq_eq_false_iff_ne]
          exact fun hq => hcc hq.symm
        simp [this, hcc]
    · simp only [List.countP_cons, List.countP_nil, countP_doneOn_claim,
        countP_doneOn_done]
      by_cases hcc : c = ch
      · subst hcc
        simp
      · have : (ch == c) = false := by
          simp only [beq_eq_false_iff_ne]
          exact fun hq => hcc hq.symm
        simp [this, hcc]
    · simp only [List.countP_cons, List.countP_nil, countP_doneOn_claim,
        countP_doneOn_done, isDoneOn]
      by_cases hcc : c = ch
      · subst hcc
        simp
      · have : (ch == c) = false := by
          simp only [beq_eq_false_iff_ne]
          exact fun hq => hcc hq.symm
        simp [this, hcc]
    · have hd1 : 1 ≤ depth := by omega
      have hn1 : 1 ≤ depth.toNat := by omega
      have hm : (depth - 1).toNat ≤ n - 1 := by omega
      have h2 : (crawlList f p 0 res.2 (depth - 1)
          (url :: emap)).2.countP (isDoneOn c) = 0 :=
        (ih (n - 1) (by omega)).2.1 f p c 0 res.2 (depth - 1)
          (url :: emap) hm hpre
      simp only [List.countP_cons, List.countP_append, List.countP_nil,
        countP_doneOn_claim, countP_doneOn_done, isDoneOn, h2]
      by_cases hcc : c = ch
      · subst hcc
        simp
      · have : (ch == c) = false := by
          simp only [beq_eq_false_iff_ne]
          exact fun hq => hcc hq.symm
        simp [this, hcc]
  have hQ : ∀ (f : Fetcher) (p c : List Nat) (i : Nat)
      (urls : List String) (depth : Int) (emap : List String),
      depth.toNat ≤ n → p.isPrefixOf c = false →
      (crawlList f p i urls depth emap).2.countP (isDoneOn c) = 0 := by
    intro f p c i urls depth emap hdep hpre
    induction urls generalizing i emap with
    | nil =>
      rw [crawlList_nil]
      rfl
    | cons u us ihu =>
      rw [crawlList_cons]
      show ((crawl f (p ++ [i]) p u depth emap).2 ++ _).countP _ = 0
      rw [List.countP_append,
        hP f (p ++ [i]) p c u depth emap hdep
          (isPrefixOf_extend_false p c i hpre),
        if_neg (ne_of_not_prefixOf p c hpre), ihu]
  have hQ2 : ∀ (f : Fetcher) (p : List Nat) (i : Nat)
      (urls : List String) (depth : Int) (emap : List String),
      depth.toNat ≤ n →
      (crawlList f p i urls depth emap).2.countP (isDoneOn p) =
        urls.length := by
    intro f p i urls depth emap hdep
    induction urls generalizing i emap with
    | nil =>
      rw [crawlList_nil]
      rfl
    | cons u us ihu =>
      rw [crawlList_cons]
      show ((crawl f (p ++ [i]) p u depth emap).2 ++ _).countP _ =
        (u :: us).length
      rw [List.countP_append,
        hP f (p ++ [i]) p p u depth emap hdep
          (append_not_prefixOf_self p i),
        if_pos rfl, ihu]
      simp [Nat.add_comm]
  exact ⟨hP, hQ, hQ2⟩

/-- C3.  Every `Crawl` invocation sends exactly one completion signal on
the channel it was given, on every exit path — duplicate claim, depth
exhausted, fetch failure, or full success — and that deferred send is the
last action of the invocation. -/
theorem crawl_signals_completion_once (f : Fetcher) (p ch : List Nat)
    (url : String) (depth : Int) (emap : List String)
    (h : p.isPrefixOf ch = false) :
    (crawl f p ch url depth emap).2.countP (isDoneOn ch) = 1 ∧
    ∃ pre, (crawl f p ch url depth emap).2 = pre ++ [Event.done ch url] := by
  constructor
  · have hc := (crawl_countDone_all depth.toNat).1 f p ch ch url depth
      emap le_rfl h
    simpa using hc
  · rcases crawl_cases f p ch url depth emap with
      ⟨hc, he⟩ | ⟨hc, hd, he⟩ | ⟨hc, hd, e, hf, he⟩ | ⟨hc, hd, res, hf, he⟩ <;>
      rw [he]
    · exact ⟨[Event.claim p url false], rfl⟩
    · exact ⟨[Event.claim p url true], rfl⟩
    · exact ⟨[Event.claim p url true, Event.fetch p url depth false,
        Event.report e], rfl⟩
    · exact ⟨Event.claim p url true :: Event.fetch p url depth true ::
        Event.found url res.1 ::
        (crawlList f p 0 res.2 (depth - 1) (url :: emap)).2, rfl⟩

/-- Witness for C3: the root invocation of the canned depth-4 run. -/
theorem crawl_signals_completion_once_witness :
    (([0] : List Nat).isPrefixOf [] = false) ∧
    ((crawl fetcherFn [0] [] urlA 4 []).2.countP (isDoneOn []) = 1 ∧
      ∃ pre, (crawl fetcherFn [0] [] urlA 4 []).2 =
        pre ++ [Event.done [] urlA]) :=
  ⟨rfl, crawl_signals_completion_once fetcherFn [0] [] urlA 4 [] rfl⟩

/-- The number of children a `Crawl` invocation spawns (lines 58-61):
zero on a duplicate claim, exhausted depth or failed fetch, and one per
discovered link otherwise. -/
def spawnCount (f : Fetcher) (url : String) (depth : Int)
    (emap : List String) : Nat :=
  if emap.contains url then 0
  else if depth ≤ 0 then 0
  else match f url with
    | .error _ => 0
    | .ok res => res.2.length

/-- C4.  A `Crawl` invocation's deferred completion signal is the last
event of its trace, and before it the trace carries exactly one
completion signal on the invocation's private subchannel per spawned
child: the parent receives all its children's completions before its own
signal fires. -/
theorem crawl_joins_children_before_done (f : Fetcher) (p ch : List Nat)
    (url : String) (depth : Int) (emap : List String)
    (h : p.isPrefixOf ch = false) :
    ∃ pre, (crawl f p ch url depth emap).2 = pre ++ [Event.done ch url] ∧
      pre.countP (isDoneOn p) = spawnCount f url depth emap := by
  have hchp : ch ≠ p := ne_of_not_prefixOf p ch h
  rcases crawl_cases f p ch url depth emap with
    ⟨hc, he⟩ | ⟨hc, hd, he⟩ | ⟨hc, hd, e, hf, he⟩ | ⟨hc, hd, res, hf, he⟩ <;>
    rw [he]
  · refine ⟨[Event.claim p url false], rfl, ?_⟩
    unfold spawnCount
    rw [if_pos hc]
    rfl
  · refine ⟨[Event.claim p url true], rfl, ?_⟩
    unfold spawnCount
    rw [if_neg (by rw [hc]; exact Bool.false_ne_true), if_pos hd]
    rfl
  · refine ⟨[Event.claim p url true, Event.fetch p url depth false,
      Event.report e], rfl, ?_⟩
    unfold spawnCount
    rw [if_neg (by rw [hc]; exact Bool.false_ne_true), if_neg hd, hf]
    rfl
  · refine ⟨Event.claim p url true :: Event.fetch p url depth true ::
      Event.found url res.1 ::
      (crawlList f p 0 res.2 (depth - 1) (url :: emap)).2, rfl, ?_⟩
    unfold spawnCount
    rw [if_neg (by rw [hc]; exact Bool.false_ne_true), if_neg hd, hf]
    have h2 := (crawl_countDone_all (depth - 1).toNat).2.2 f p 0 res.2
      (depth - 1) (url :: emap) le_rfl
    simp only [List.countP_cons, countP_doneOn_claim, isDoneOn, h2]
    rfl

/-- Witness for C4: the root invocation of the canned depth-4 run spawns
one child per link of the root page. -/
theorem crawl_joins_children_before_done_witness :
    (([0] : List Nat).isPrefixOf [] = false) ∧
    ∃ pre, (crawl fetcherFn [0] [] urlA 4 []).2 =
        pre ++ [Event.done [] urlA] ∧
      pre.countP (isDoneOn [0]) = spawnCount fetcherFn urlA 4 [] :=
  ⟨rfl, crawl_joins_children_before_done fetcherFn [0] [] urlA 4 [] rfl⟩

/-- Claim/completion balance: every goroutine in a `crawl` trace (each
performs exactly one claim round-trip) also emits exactly one completion
signal. -/
theorem crawl_balance_all (n : Nat) :
    (∀ (f : Fetcher) (p ch : List Nat) (url : String) (depth : Int)
      (emap : List String), depth.toNat ≤ n →
      (crawl f p ch url depth emap).2.countP isDone =
        (crawl f p ch url depth emap).2.countP isClaim) ∧
    (∀ (f : Fetcher) (p : List Nat) (i : Nat) (urls : List String)
      (depth : Int) (emap : List String), depth.toNat ≤ n →
      (crawlList f p i urls depth emap).2.countP isDone =
        (crawlList f p i urls depth emap).2.countP isClaim) := by
  induction n using Nat.strong_induction_on with
  | _ n ih =>
  have hP : ∀ (f : Fetcher) (p ch : List Nat) (url : String)
      (depth : Int) (emap : List String), depth.toNat ≤ n →
      (crawl f p ch url depth emap).2.countP isDone =
        (crawl f p ch url depth emap).2.countP isClaim := by
    intro f p ch url depth emap hdep
    rcases crawl_cases f p ch url depth emap with
      ⟨hc, he⟩ | ⟨hc, hd, he⟩ | ⟨hc, hd, e, hf, he⟩ | ⟨hc, hd, res, hf, he⟩ <;>
      rw [he]
    · rfl
    · rfl
    · rfl
    · have hd1 : 1 ≤ depth := by omega
      have hn1 : 1 ≤ depth.toNat := by omega
      have h2 := (ih (n - 1) (by omega)).2 f p 0 res.2 (depth - 1)
        (url :: emap) (by omega)
      simp only [List.countP_cons, List.countP_append, List.countP_nil, h2]
      rfl
  have hQ : ∀ (f : Fetcher) (p : List Nat) (i : Nat)
      (urls : List String) (depth : Int) (emap : List String),
      depth.toNat ≤ n →
      (crawlList f p i urls depth emap).2.countP isDone =
        (crawlList f p i urls depth emap).2.countP isClaim := by
    intro f p i urls depth emap hdep
    induction urls generalizing i emap with
    | nil =>
      rw [crawlList_nil]
      rfl
    | cons u us ihu =>
      rw [crawlList_cons]
      show ((crawl f (p ++ [i]) p u depth emap).2 ++ _).countP _ =
        ((crawl f (p ++ [i]) p u depth emap).2 ++ _).countP _
      rw [List.countP_append, List.countP_append,
        hP f (p ++ [i]) p u depth emap hdep, ihu]
  exact ⟨hP, hQ⟩

/-- C8.  For every fetcher (any finite link graph), every depth budget
and every starting state, a `Crawl` invocation terminates with its
deferred completion as the final event — so the driver's blocking
receive returns — and its trace carries exactly as many completion
signals as claim round-trips: every transitively spawned goroutine
completed. -/
theorem crawl_always_completes (f : Fetcher) (p ch : List Nat)
    (url : String) (depth : Int) (emap : List String) :
    (crawl f p ch url depth emap).2.getLast? =
      some (Event.done ch url) ∧
    (crawl f p ch url depth emap).2.countP isDone =
      (crawl f p ch url depth emap).2.countP isClaim := by
  constructor
  · rcases crawl_cases f p ch url depth emap with
      ⟨hc, he⟩ | ⟨hc, hd, he⟩ | ⟨hc, hd, e, hf, he⟩ | ⟨hc, hd, res, hf, he⟩ <;>
      rw [he]
    · rfl
    · rfl
    · rfl
    · show ((Event.claim p url true :: Event.fetch p url depth true ::
        Event.found url res.1 ::
        (crawlList f p 0 res.2 (depth - 1) (url :: emap)).2) ++
          [Event.done ch url]).getLast? = some (Event.done ch url)
      rw [List.getLast?_concat]
  · exact (crawl_balance_all depth.toNat).1 f p ch url depth emap le_rfl

/-- Depth/generation bookkeeping of fetch events: a fetch recorded by the
goroutine at path `q` with remaining depth `d2` satisfies `1 <= d2` (the
depth check precedes the fetch) and `d2 + |q| = depth + |p|` (every
spawn generation costs exactly one unit of depth budget). -/
theorem crawl_fetch_tags_all (n : Nat) :
    (∀ (f : Fetcher) (p ch : List Nat) (url : String) (depth : Int)
      (emap : List String) (q : List Nat) (u2 : String) (d2 : Int)
      (ok : Bool), depth.toNat ≤ n →
      Event.fetch q u2 d2 ok ∈ (crawl f p ch url depth emap).2 →
      1 ≤ d2 ∧ d2 ≤ depth ∧
        d2 + (q.length : Int) = depth + (p.length : Int)) ∧
    (∀ (f : Fetcher) (p : List Nat) (i : Nat) (urls : List String)
      (depth : Int) (emap : List String) (q : List Nat) (u2 : String)
      (d2 : Int) (ok : Bool), depth.toNat ≤ n →
      Event.fetch q u2 d2 ok ∈ (crawlList f p i urls depth emap).2 →
      1 ≤ d2 ∧ d2 ≤ depth ∧
        d2 + (q.length : Int) = depth + (p.length : Int) + 1) := by
  induction n using Nat.strong_induction_on with
  | _ n ih =>
  have hP : ∀ (f : Fetcher) (p ch : List Nat) (url : String)
      (depth : Int) (emap : List String) (q : List Nat) (u2 : String)
      (d2 : Int) (ok : Bool), depth.toNat ≤ n →
      Event.fetch q u2 d2 ok ∈ (crawl f p ch url depth emap).2 →
      1 ≤ d2 ∧ d2 ≤ depth ∧
        d2 + (q.length : Int) = depth + (p.length : Int) := by
    intro f p ch url depth emap q u2 d2 ok hdep hmem
    rcases crawl_cases f p ch url depth emap with
      ⟨hc, he⟩ | ⟨hc, hd, he⟩ | ⟨hc, hd, e, hf, he⟩ | ⟨hc, hd, res, hf, he⟩ <;>
      rw [he] at hmem
    · simp at hmem
    · simp at hmem
    · simp only [List.mem_cons, List.not_mem_nil, or_false] at hmem
      rcases hmem with hmem | hmem | hmem | hmem
      · cases hmem
      · injection hmem with h1 h2 h3 h4
        subst h1
        subst h2
        subst h3
        subst h4
        exact ⟨by omega, le_rfl, rfl⟩
      · cases hmem
      · cases hmem
    · simp only [List.mem_cons, List.mem_append, List.mem_singleton,
        List.not_mem_nil, or_false] at hmem
      rcases hmem with hmem | hmem | hmem | hmem | hmem
      · cases hmem
      · injection hmem with h1 h2 h3 h4
        subst h1
        subst h2
        subst h3
        subst h4
        exact ⟨by omega, le_rfl, rfl⟩
      · cases hmem
      · have hd1 : 1 ≤ depth := by omega
        have hn1 : 1 ≤ depth.toNat := by omega
        have h2 := (ih (n - 1) (by omega)).2 f p 0 res.2 (depth - 1)
          (url :: emap) q u2 d2 ok (by omega) hmem
        refine ⟨h2.1, by omega, by have := h2.2.2; omega⟩
      · cases hmem
  have hQ : ∀ (f : Fetcher) (p : List Nat) (i : Nat)
      (urls : List String) (depth : Int) (emap : List String)
      (q : List Nat) (u2 : String) (d2 : Int) (ok : Bool),
      depth.toNat ≤ n →
      Event.fetch q u2 d2 ok ∈ (crawlList f p i urls depth emap).2 →
      1 ≤ d2 ∧ d2 ≤ depth ∧
        d2 + (q.length : Int) = depth + (p.length : Int) + 1 := by
    intro f p i urls depth emap q u2 d2 ok hdep hmem
    induction urls generalizing i emap with
    | nil =>
      rw [crawlList_nil] at hmem
      cases hmem
    | cons u us ihu =>
      rw [crawlList_cons] at hmem
      rcases List.mem_append.mp hmem with hm | hm
      · have h2 := hP f (p ++ [i]) p u depth emap q u2 d2 ok hdep hm
        refine ⟨h2.1, h2.2.1, ?_⟩
        have := h2.2.2
        rw [List.length_append, List.length_singleton] at this
        push_cast at this ⊢
        omega
      · exact ihu (i + 1) _ hm
  exact ⟨hP, hQ⟩

/-- C6.  In a run rooted at path `[0]` with depth budget `depth`, every
fetch event is performed by a goroutine with remaining depth at least 1,
the remaining depth plus the spawn-generation distance from the root
equals the budget, and hence no fetch happens at generation distance
greater than `depth - 1` — in particular never beyond the budget. -/
theorem crawl_depth_bound (f : Fetcher) (url : String) (depth : Int)
    (emap : List String) (q : List Nat) (u2 : String) (d2 : Int)
    (ok : Bool)
    (h : Event.fetch q u2 d2 ok ∈ (crawl f [0] [] url depth emap).2) :
    1 ≤ d2 ∧ d2 + ((q.length : Int) - 1) = depth ∧
      (q.length : Int) - 1 ≤ depth - 1 := by
  have h2 := (crawl_fetch_tags_all depth.toNat).1 f [0] [] url depth emap
    q u2 d2 ok le_rfl h
  have hlen : ((([0] : List Nat)).length : Int) = 1 := rfl
  refine ⟨h2.1, ?_, ?_⟩
  · have := h2.2.2
    rw [hlen] at this
    omega
  · have := h2.2.2
    rw [hlen] at this
    have h1 := h2.1
    omega

/-- Witness for C6: the root fetch of the canned depth-4 run. -/
theorem crawl_depth_bound_witness :
    (Event.fetch [0] urlA 4 true ∈
      (crawl fetcherFn [0] [] urlA 4 []).2) ∧
    (1 ≤ (4 : Int) ∧ (4 : Int) + ((([0] : List Nat).length : Int) - 1) = 4 ∧
      (([0] : List Nat).length : Int) - 1 ≤ 4 - 1) :=
  have hmem : Event.fetch [0] urlA 4 true ∈
      (crawl fetcherFn [0] [] urlA 4 []).2 := by
    rw [crawl_fetch_ok fetcherFn [0] [] urlA 4 [] _ rfl (by decide)
      fetcherFn_A]
    exact List.mem_cons_of_mem _ (List.mem_cons_self _ _)
  ⟨hmem, crawl_depth_bound fetcherFn urlA 4 [] [0] urlA 4 true hmem⟩

/-- `crawl_fetch_ok` with the fetch result split into body and links. -/
theorem crawl_fetch_ok2 (f : Fetcher) (p ch : List Nat) (url : String)
    (depth : Int) (emap : List String) (body : String)
    (urls : List String) (h : emap.contains url = false)
    (hd : ¬ depth ≤ 0) (hf : f url = .ok (body, urls)) :
    crawl f p ch url depth emap =
      ((crawlList f p 0 urls (depth - 1) (url :: emap)).1,
        Event.claim p url true :: Event.fetch p url depth true ::
          Event.found url body ::
          ((crawlList f p 0 urls (depth - 1) (url :: emap)).2 ++
            [Event.done ch url])) :=
  crawl_fetch_ok f p ch url depth emap (body, urls) h hd hf

/-- A small fetcher with one failing link, used as the C7 witness: the
root r links to x (which fails) and y (which succeeds). -/
def failFetcher : Fetcher := fun url =>
  if url = "r" then .ok ("root page", ["x", "y"])
  else if url = "y" then .ok ("y page", [])
  else .error ("not found: " ++ url)

/-- C7.  A Fetcher failure is absorbed by the goroutine that issued the
fetch: the error is printed and the goroutine completes as if no links
were discovered, spawning nothing (first conjunct).  In a run whose root
links to a failing x and a healthy sibling y, x's failure does not
prevent y from being fetched, and the driver's receive still gets the
root's completion as the final event (second conjunct). -/
theorem crawl_fetch_failure_contained (f : Fetcher) (p ch : List Nat)
    (url : String) (depth : Int) (emap : List String) (e : String)
    (R X Y bR bY eX : String)
    (hc : emap.contains url = false) (hd : ¬ depth ≤ 0)
    (hf : f url = .error e)
    (hR : f R = .ok (bR, [X, Y])) (hX : f X = .error eX)
    (hY : f Y = .ok (bY, []))
    (hXR : X ≠ R) (hYR : Y ≠ R) (hYX : Y ≠ X) :
    crawl f p ch url depth emap =
      (url :: emap,
        [Event.claim p url true, Event.fetch p url depth false,
          Event.report e, Event.done ch url]) ∧
    crawl f [0] [] R 2 [] =
      ([Y, X, R],
        [Event.claim [0] R true, Event.fetch [0] R 2 true,
          Event.found R bR,
          Event.claim ([0] ++ [0]) X true,
          Event.fetch ([0] ++ [0]) X 1 false,
          Event.report eX, Event.done [0] X,
          Event.claim ([0] ++ [0 + 1]) Y true,
          Event.fetch ([0] ++ [0 + 1]) Y 1 true,
          Event.found Y bY, Event.done [0] Y,
          Event.done [] R]) := by
  constructor
  · exact crawl_fetch_error f p ch url depth emap e hc hd hf
  · have hcR : ([] : List String).contains R = false := rfl
    have hbXR : (X == R) = false := beq_eq_false_iff_ne.mpr hXR
    have hbYX : (Y == X) = false := beq_eq_false_iff_ne.mpr hYX
    have hbYR : (Y == R) = false := beq_eq_false_iff_ne.mpr hYR
    have hcX : ([R] : List String).contains X = false := by
      rw [List.contains_cons, hbXR]
      rfl
    have hcY : ([X, R] : List String).contains Y = false := by
      rw [List.contains_cons, hbYX, List.contains_cons, hbYR]
      rfl
    have e1 : crawl f ([0] ++ [0]) [0] X (2 - 1) [R] =
        ([X, R],
          [Event.claim ([0] ++ [0]) X true,
            Event.fetch ([0] ++ [0]) X (2 - 1) false,
            Event.report eX, Event.done [0] X]) :=
      crawl_fetch_error f ([0] ++ [0]) [0] X (2 - 1) [R] eX hcX
        (by decide) hX
    have e2 : crawl f ([0] ++ [0 + 1]) [0] Y (2 - 1) [X, R] =
        ([Y, X, R],
          [Event.claim ([0] ++ [0 + 1]) Y true,
            Event.fetch ([0] ++ [0 + 1]) Y (2 - 1) true,
            Event.found Y bY, Event.done [0] Y]) := by
      rw [crawl_fetch_ok2 f ([0] ++ [0 + 1]) [0] Y (2 - 1) [X, R] bY []
        hcY (by decide) hY, crawlList_nil]
      rfl
    have e3 : crawlList f [0] 0 [X, Y] (2 - 1) [R] =
        ([Y, X, R],
          [Event.claim ([0] ++ [0]) X true,
            Event.fetch ([0] ++ [0]) X (2 - 1) false,
            Event.report eX, Event.done [0] X] ++
          [Event.claim ([0] ++ [0 + 1]) Y true,
            Event.fetch ([0] ++ [0 + 1]) Y (2 - 1) true,
            Event.found Y bY, Event.done [0] Y]) := by
      rw [crawlList_cons, e1]
      dsimp only
      rw [crawlList_cons, e2]
      dsimp only
      rw [crawlList_nil]
      rfl
    rw [crawl_fetch_ok2 f [0] [] R 2 [] bR [X, Y] hcR (by decide) hR, e3]
    rfl

/-- Witness for C7: `failFetcher`, with the failing url x in both roles. -/
theorem crawl_fetch_failure_contained_witness :
    ((([] : List String).contains "x" = false) ∧ ¬ (1 : Int) ≤ 0 ∧
      failFetcher "x" = .error ("not found: " ++ "x") ∧
      failFetcher "r" = .ok ("root page", ["x", "y"]) ∧
      failFetcher "y" = .ok ("y page", []) ∧
      ("x" : String) ≠ "r" ∧ ("y" : String) ≠ "r" ∧
      ("y" : String) ≠ "x") ∧
    (crawl failFetcher [0, 0] [0] "x" 1 [] =
      (["x"],
        [Event.claim [0, 0] "x" true, Event.fetch [0, 0] "x" 1 false,
          Event.report ("not found: " ++ "x"), Event.done [0] "x"]) ∧
    crawl failFetcher [0] [] "r" 2 [] =
      (["y", "x", "r"],
        [Event.claim [0] "r" true, Event.fetch [0] "r" 2 true,
          Event.found "r" "root page",
          Event.claim ([0] ++ [0]) "x" true,
          Event.fetch ([0] ++ [0]) "x" 1 false,
          Event.report ("not found: " ++ "x"), Event.done [0] "x",
          Event.claim ([0] ++ [0 + 1]) "y" true,
          Event.fetch ([0] ++ [0 + 1]) "y" 1 true,
          Event.found "y" "y page", Event.done [0] "y",
          Event.done [] "r"])) :=
  ⟨⟨rfl, by decide, rfl, rfl, rfl, by decide, by decide, by decide⟩,
    crawl_fetch_failure_contained failFetcher [0, 0] [0] "x" 1 []
      ("not found: " ++ "x") "r" "x" "y" "root page" "y page"
      ("not found: " ++ "x") rfl (by decide) rfl rfl rfl rfl
      (by decide) (by decide) (by decide)⟩

/-- Witness for C1: the canned run under a short schedule. -/
theorem crawl_fetch_at_most_once_witness :
    (run fetcherFn (initState urlA 4) [0, 0, 0]).invoked.count urlA ≤ 1 ∧
      (urlA ∈ (run fetcherFn (initState urlA 4) [0, 0, 0]).invoked →
        urlA ∈ (run fetcherFn (initState urlA 4) [0, 0, 0]).emap) :=
  crawl_fetch_at_most_once fetcherFn urlA 4 [0, 0, 0] urlA

/-- Witness for C8: a depth-0 root invocation. -/
theorem crawl_always_completes_witness :
    (crawl fetcherFn [0] [] urlA 0 []).2.getLast? =
      some (Event.done [] urlA) ∧
    (crawl fetcherFn [0] [] urlA 0 []).2.countP isDone =
      (crawl fetcherFn [0] [] urlA 0 []).2.countP isClaim :=
  crawl_always_completes fetcherFn [0] [] urlA 0 []
